import Mathlib

/-!
Verification development for the FlaskBlog repository.

The repository has two source files:

* `html_inspector.py` — `strip_invalid_html(html_code)`, a wrapper around
  `bleach.clean(html_code, tags=allowed_tags, attributes=allowed_attributes, strip=True)`
  with a fixed tag allow-list and per-tag attribute allow-list.
* `main.py` — Flask request handlers (`show_post`, `edit_post`, `add_new_post`,
  `delete_post`, …) that call `strip_invalid_html` on user-supplied rich-text
  fields before persisting them, plus an `admin_only` decorator.

The sanitizer is embedded here as an executable model of the bleach cleaning
pipeline (bleach is an external dependency of the repository; its code is not
part of the repository, so the pipeline below is modelled from bleach's
behaviour: an HTML5 tokenizer in which tags whose lowercased name is outside
the allow-list are stripped — replaced by an empty character token, or by a
newline for block-level start tags once a tag has been emitted — followed by
per-tag attribute filtering with a URI protocol check for `href`/`src`, and a
serializer that escapes `&`, `<`, `>` in text (leaving already-present
character entities alone) and quotes attribute values).

Documented simplifications of the model, none of which affects the inputs and
properties treated below:
* html5lib's tree-construction phase (tag balancing, foster parenting,
  implied end tags) is not modelled; the token stream is serialized directly.
* The character-entity table is restricted to the entities the serializer
  itself can emit (`amp`, `lt`, `gt`, `quot`); other entity-like text gets its
  ampersand escaped instead of being preserved verbatim, and the URI check
  does not decode entities before inspecting the value.
* A tag left unterminated at end of input is dropped (together with its
  attributes), and `<!doctype …>`/`<![CDATA[…]>` are treated as bogus
  comments; comments are dropped as bleach does with its default
  `strip_comments=True`.
-/

namespace FlaskBlog

/-- The double-quote character. -/
def dquote : Char := '"'

/-- The single-quote (apostrophe) character. -/
def squote : Char := Char.ofNat 39

/-- ASCII lowercasing of a single character, as html5lib applies to tag and
attribute names. -/
def lowerCh (c : Char) : Char :=
  if 'A' ≤ c ∧ c ≤ 'Z' then Char.ofNat (c.toNat + 32) else c

/-- ASCII letter test (start of a tag name in the tokenizer). -/
def isLetter (c : Char) : Bool :=
  ('a' ≤ c && c ≤ 'z') || ('A' ≤ c && c ≤ 'Z')

/-- HTML whitespace inside tags: space, tab, line feed, form feed. -/
def isWsH (c : Char) : Bool :=
  c = ' ' || c = '\t' || c = '\n' || c = '\x0c'

/-- Characters bleach's `sanitize_characters` treats as invisible
(C0 controls except tab and line feed). -/
def isInvis (c : Char) : Bool :=
  c.toNat ≤ 8 || (11 ≤ c.toNat && c.toNat ≤ 31)

/-- bleach replaces each invisible character in text with a question mark. -/
def invisFix (c : Char) : Char := if isInvis c then '?' else c

/-- Input-stream preprocessing of html5lib: newline normalization and
replacement of NUL by U+FFFD. -/
def preprocess : List Char → List Char
  | [] => []
  | '\r' :: '\n' :: r => '\n' :: preprocess r
  | '\r' :: r => '\n' :: preprocess r
  | '\x00' :: r => '�' :: preprocess r
  | c :: r => c :: preprocess r

/-- An attribute: (lowercased name, raw value). -/
abbrev Attr := List Char × List Char

/-- Tokens of the sanitizer pipeline. Comments carry no payload because the
cleaner drops them (`strip_comments=True`). -/
inductive Tok where
  | text (s : List Char)
  | startTag (name : List Char) (attrs : List Attr) (selfClosing : Bool)
  | endTag (name : List Char)
  | comment
deriving DecidableEq, Repr

/-- Tokenizer states (html5lib's tokenizer, with the pending character run
`acc` carried in reverse order so that adjacent character tokens merge the way
html5lib's tree builder merges adjacent text nodes). -/
inductive TkState where
  | data (acc : List Char)
  | tagOpen (acc : List Char)
  | endTagOpen (acc : List Char)
  | tagName (acc : List Char) (e : Bool) (n : List Char)
  | beforeAttrName (acc : List Char) (e : Bool) (n : List Char) (ats : List Attr)
  | attrName (acc : List Char) (e : Bool) (n : List Char) (ats : List Attr) (an : List Char)
  | afterAttrName (acc : List Char) (e : Bool) (n : List Char) (ats : List Attr) (an : List Char)
  | beforeAttrValue (acc : List Char) (e : Bool) (n : List Char) (ats : List Attr) (an : List Char)
  | attrValueDq (acc : List Char) (e : Bool) (n : List Char) (ats : List Attr) (an : List Char) (av : List Char)
  | attrValueSq (acc : List Char) (e : Bool) (n : List Char) (ats : List Attr) (an : List Char) (av : List Char)
  | attrValueUnq (acc : List Char) (e : Bool) (n : List Char) (ats : List Attr) (an : List Char) (av : List Char)
  | afterQuoted (acc : List Char) (e : Bool) (n : List Char) (ats : List Attr)
  | selfClosing (acc : List Char) (e : Bool) (n : List Char) (ats : List Attr)
  | markupDecl
  | markupDecl2
  | commentStart
  | commentStartDash
  | commentIn
  | commentDash
  | commentDash2
  | commentBang
  | bogus

/-- Flush a pending (reversed) character run into at most one text token. -/
def emitAcc (acc : List Char) : List Tok :=
  if acc.isEmpty then [] else [Tok.text acc.reverse]

/-- Duplicate attributes keep the first occurrence, as html5lib does. -/
def dedupAttrs (seen : List (List Char)) : List Attr → List Attr
  | [] => []
  | a :: r => if a.1 ∈ seen then dedupAttrs seen r else a :: dedupAttrs (a.1 :: seen) r

/-- Emit a finished tag token (preceded by any pending text). End tags discard
their attributes, as the html5lib tree builder does. -/
def emitTag (acc : List Char) (e : Bool) (n : List Char) (ats : List Attr) (sc : Bool) : List Tok :=
  if e then emitAcc acc ++ [Tok.endTag n.reverse]
  else emitAcc acc ++ [Tok.startTag n.reverse (dedupAttrs [] ats.reverse) sc]

/-- One step of the tokenizer: consume one character, emit zero or more
tokens, move to the next state. -/
def tokNext : TkState → Char → List Tok × TkState
  | .data acc, c =>
    if c = '<' then ([], .tagOpen acc) else ([], .data (c :: acc))
  | .tagOpen acc, c =>
    if c = '!' then (emitAcc acc, .markupDecl)
    else if c = '/' then ([], .endTagOpen acc)
    else if c = '?' then (emitAcc acc, .bogus)
    else if isLetter c then ([], .tagName acc false [lowerCh c])
    else if c = '<' then ([], .tagOpen ('<' :: acc))
    else ([], .data (c :: '<' :: acc))
  | .endTagOpen acc, c =>
    if c = '>' then ([], .data acc)
    else if isLetter c then ([], .tagName acc true [lowerCh c])
    else (emitAcc acc, .bogus)
  | .tagName acc e n, c =>
    if isWsH c then ([], .beforeAttrName acc e n [])
    else if c = '/' then ([], .selfClosing acc e n [])
    else if c = '>' then (emitTag acc e n [] false, .data [])
    else ([], .tagName acc e (lowerCh c :: n))
  | .beforeAttrName acc e n ats, c =>
    if isWsH c then ([], .beforeAttrName acc e n ats)
    else if c = '/' then ([], .selfClosing acc e n ats)
    else if c = '>' then (emitTag acc e n ats false, .data [])
    else ([], .attrName acc e n ats [lowerCh c])
  | .attrName acc e n ats an, c =>
    if isWsH c then ([], .afterAttrName acc e n ats an)
    else if c = '=' then ([], .beforeAttrValue acc e n ats an)
    else if c = '/' then ([], .selfClosing acc e n ((an.reverse, []) :: ats))
    else if c = '>' then (emitTag acc e n ((an.reverse, []) :: ats) false, .data [])
    else ([], .attrName acc e n ats (lowerCh c :: an))
  | .afterAttrName acc e n ats an, c =>
    if isWsH c then ([], .afterAttrName acc e n ats an)
    else if c = '=' then ([], .beforeAttrValue acc e n ats an)
    else if c = '/' then ([], .selfClosing acc e n ((an.reverse, []) :: ats))
    else if c = '>' then (emitTag acc e n ((an.reverse, []) :: ats) false, .data [])
    else ([], .attrName acc e n ((an.reverse, []) :: ats) [lowerCh c])
  | .beforeAttrValue acc e n ats an, c =>
    if isWsH c then ([], .beforeAttrValue acc e n ats an)
    else if c = dquote then ([], .attrValueDq acc e n ats an [])
    else if c = squote then ([], .attrValueSq acc e n ats an [])
    else if c = '>' then (emitTag acc e n ((an.reverse, []) :: ats) false, .data [])
    else ([], .attrValueUnq acc e n ats an [c])
  | .attrValueDq acc e n ats an av, c =>
    if c = dquote then ([], .afterQuoted acc e n ((an.reverse, av.reverse) :: ats))
    else ([], .attrValueDq acc e n ats an (c :: av))
  | .attrValueSq acc e n ats an av, c =>
    if c = squote then ([], .afterQuoted acc e n ((an.reverse, av.reverse) :: ats))
    else ([], .attrValueSq acc e n ats an (c :: av))
  | .attrValueUnq acc e n ats an av, c =>
    if isWsH c then ([], .beforeAttrName acc e n ((an.reverse, av.reverse) :: ats))
    else if c = '>' then (emitTag acc e n ((an.reverse, av.reverse) :: ats) false, .data [])
    else ([], .attrValueUnq acc e n ats an (c :: av))
  | .afterQuoted acc e n ats, c =>
    if isWsH c then ([], .beforeAttrName acc e n ats)
    else if c = '/' then ([], .selfClosing acc e n ats)
    else if c = '>' then (emitTag acc e n ats false, .data [])
    else ([], .attrName acc e n ats [lowerCh c])
  | .selfClosing acc e n ats, c =>
    if c = '>' then (emitTag acc e n ats true, .data [])
    else if isWsH c then ([], .beforeAttrName acc e n ats)
    else if c = '/' then ([], .selfClosing acc e n ats)
    else ([], .attrName acc e n ats [lowerCh c])
  | .markupDecl, c =>
    if c = '-' then ([], .markupDecl2)
    else if c = '>' then ([Tok.comment], .data [])
    else ([], .bogus)
  | .markupDecl2, c =>
    if c = '-' then ([], .commentStart)
    else if c = '>' then ([Tok.comment], .data [])
    else ([], .bogus)
  | .commentStart, c =>
    if c = '-' then ([], .commentStartDash)
    else if c = '>' then ([Tok.comment], .data [])
    else ([], .commentIn)
  | .commentStartDash, c =>
    if c = '-' then ([], .commentDash2)
    else if c = '>' then ([Tok.comment], .data [])
    else ([], .commentIn)
  | .commentIn, c =>
    if c = '-' then ([], .commentDash) else ([], .commentIn)
  | .commentDash, c =>
    if c = '-' then ([], .commentDash2) else ([], .commentIn)
  | .commentDash2, c =>
    if c = '>' then ([Tok.comment], .data [])
    else if c = '!' then ([], .commentBang)
    else if c = '-' then ([], .commentDash2)
    else ([], .commentIn)
  | .commentBang, c =>
    if c = '>' then ([Tok.comment], .data [])
    else if c = '-' then ([], .commentDash)
    else ([], .commentIn)
  | .bogus, c =>
    if c = '>' then ([Tok.comment], .data []) else ([], .bogus)

/-- End-of-input behaviour: pending text is flushed (a lone `<` or `</`
becomes text, as in html5lib), an unterminated tag is dropped, an
unterminated comment is still a comment token. -/
def tokFlush : TkState → List Tok
  | .data acc => emitAcc acc
  | .tagOpen acc => emitAcc ('<' :: acc)
  | .endTagOpen acc => emitAcc ('/' :: '<' :: acc)
  | .tagName acc _ _ => emitAcc acc
  | .beforeAttrName acc _ _ _ => emitAcc acc
  | .attrName acc _ _ _ _ => emitAcc acc
  | .afterAttrName acc _ _ _ _ => emitAcc acc
  | .beforeAttrValue acc _ _ _ _ => emitAcc acc
  | .attrValueDq acc _ _ _ _ _ => emitAcc acc
  | .attrValueSq acc _ _ _ _ _ => emitAcc acc
  | .attrValueUnq acc _ _ _ _ _ => emitAcc acc
  | .afterQuoted acc _ _ _ => emitAcc acc
  | .selfClosing acc _ _ _ => emitAcc acc
  | .markupDecl => [Tok.comment]
  | .markupDecl2 => [Tok.comment]
  | .commentStart => [Tok.comment]
  | .commentStartDash => [Tok.comment]
  | .commentIn => [Tok.comment]
  | .commentDash => [Tok.comment]
  | .commentDash2 => [Tok.comment]
  | .commentBang => [Tok.comment]
  | .bogus => [Tok.comment]

/-- Run the tokenizer over the remaining input. -/
def tokRun : TkState → List Char → List Tok
  | st, [] => tokFlush st
  | st, c :: r =>
    let p := tokNext st c
    p.1 ++ tokRun p.2 r

/-- Tokenize a whole (preprocessed) input. -/
def tokenize (s : List Char) : List Tok := tokRun (.data []) s

/-- `allowed_tags` of `strip_invalid_html` (html_inspector.py, lines 7-12). -/
def allowedTags : List (List Char) :=
  ["a", "abbr", "acronym", "address", "b", "br", "div", "dl", "dt",
   "em", "h1", "h2", "h3", "h4", "h5", "h6", "hr", "i", "img",
   "li", "ol", "p", "pre", "q", "s", "small", "strike",
   "span", "sub", "sup", "table", "tbody", "td", "tfoot", "th",
   "thead", "tr", "tt", "u", "ul"].map String.toList

/-- `allowed_attributes` of `strip_invalid_html` (html_inspector.py,
lines 14-17): `a` permits href/target/title, `img` permits
src/alt/width/height, every other tag permits nothing. -/
def allowedAttrsFor (t : List Char) : List (List Char) :=
  if t = "a".toList then ["href", "target", "title"].map String.toList
  else if t = "img".toList then ["src", "alt", "width", "height"].map String.toList
  else []

/-- bleach's block-level tag set: a stripped block-level start tag becomes a
newline once some allowed tag has been emitted. -/
def blockLevelTags : List (List Char) :=
  ["address", "article", "aside", "blockquote", "details", "dialog", "dd",
   "div", "dl", "dt", "fieldset", "figcaption", "figure", "footer", "form",
   "h1", "h2", "h3", "h4", "h5", "h6", "header", "hgroup", "hr", "li",
   "main", "nav", "ol", "p", "pre", "section", "table", "ul"].map String.toList

/-- bleach's default `ALLOWED_PROTOCOLS`. -/
def allowedProtocols : List (List Char) :=
  ["http", "https", "mailto"].map String.toList

/-- Characters bleach's URI normalization removes before checking the
protocol: controls and space, backtick, DEL..NBSP, U+FFFD. -/
def stripUri (c : Char) : Bool :=
  c.toNat ≤ 32 || c = '`' || (127 ≤ c.toNat && c.toNat ≤ 160) || c = '�'

/-- Normalized URI used only for the protocol check. -/
def uriNormalize (v : List Char) : List Char :=
  (v.filter (fun c => !stripUri c)).map lowerCh

/-- Scan for the first colon; if one occurs, the prefix must be an allowed
protocol. -/
def uriScan (sacc : List Char) : List Char → Bool
  | [] => true
  | c :: r =>
    if c = ':' then decide (sacc.reverse ∈ allowedProtocols)
    else uriScan (c :: sacc) r

/-- bleach's `sanitize_uri_value`, modelled without entity decoding: fragment
links are allowed, otherwise a value with a colon must name an allowed
protocol before its first colon. -/
def uriAllowed (v : List Char) : Bool :=
  if (uriNormalize v).head? = some '#' then true else uriScan [] (uriNormalize v)

/-- Keep an attribute iff its name is allowed for the tag and, for the URI
attributes `href`/`src`, the value passes the protocol check. -/
def attrOk (t : List Char) (a : Attr) : Bool :=
  if a.1 ∈ allowedAttrsFor t then
    if a.1 = "href".toList ∨ a.1 = "src".toList then uriAllowed a.2 else true
  else false

/-- Attribute filtering of bleach's `allow_token`. -/
def filterAttrs (t : List Char) (ats : List Attr) : List Attr :=
  ats.filter (attrOk t)

/-- The sanitizing filter: allowed tags keep their filtered attributes;
disallowed tags are stripped — a block-level start tag becomes a newline once
a tag has been emitted (`emitted_last_token` in bleach), anything else becomes
empty text; text gets its invisible characters replaced; comments are
dropped. -/
def cleanToks : Bool → List Tok → List Tok
  | _, [] => []
  | em, Tok.startTag n ats _ :: r =>
    if n ∈ allowedTags then Tok.startTag n (filterAttrs n ats) false :: cleanToks true r
    else Tok.text (if em = true ∧ n ∈ blockLevelTags then ['\n'] else []) :: cleanToks em r
  | em, Tok.endTag n :: r =>
    if n ∈ allowedTags then Tok.endTag n :: cleanToks true r
    else Tok.text [] :: cleanToks em r
  | em, Tok.text s :: r => Tok.text (s.map invisFix) :: cleanToks em r
  | em, Tok.comment :: r => cleanToks em r

/-- Merge adjacent text tokens and drop empty ones (the html5lib tree builder
appends consecutive character tokens to a single text node). -/
def mergeToks : List Tok → List Tok
  | [] => []
  | Tok.text a :: r =>
    match mergeToks r with
    | Tok.text b :: r2 => if (a ++ b).isEmpty then r2 else Tok.text (a ++ b) :: r2
    | r2 => if a.isEmpty then r2 else Tok.text a :: r2
  | t :: r => t :: mergeToks r

/-- Serializer escaping for text: `&`, `<`, `>` are escaped, but an ampersand
already starting a character entity the serializer knows is left alone
(bleach's `sanitize_characters` turns such entities into entity tokens, and
collapses `&amp;` to `&` before the serializer re-escapes it). -/
def escText : List Char → List Char
  | [] => []
  | '&' :: 'a' :: 'm' :: 'p' :: ';' :: r => '&' :: 'a' :: 'm' :: 'p' :: ';' :: escText r
  | '&' :: 'l' :: 't' :: ';' :: r => '&' :: 'l' :: 't' :: ';' :: escText r
  | '&' :: 'g' :: 't' :: ';' :: r => '&' :: 'g' :: 't' :: ';' :: escText r
  | '&' :: 'q' :: 'u' :: 'o' :: 't' :: ';' :: r => '&' :: 'q' :: 'u' :: 'o' :: 't' :: ';' :: escText r
  | '&' :: r => '&' :: 'a' :: 'm' :: 'p' :: ';' :: escText r
  | '<' :: r => '&' :: 'l' :: 't' :: ';' :: escText r
  | '>' :: r => '&' :: 'g' :: 't' :: ';' :: escText r
  | c :: r => c :: escText r

/-- Serializer escaping inside attribute values before quoting: `&` (entity
aware, via `escape_base_amp`) and `<` (bleach sets `escape_lt_in_attrs`). -/
def escAttrCore : List Char → List Char
  | [] => []
  | '&' :: 'a' :: 'm' :: 'p' :: ';' :: r => '&' :: 'a' :: 'm' :: 'p' :: ';' :: escAttrCore r
  | '&' :: 'l' :: 't' :: ';' :: r => '&' :: 'l' :: 't' :: ';' :: escAttrCore r
  | '&' :: 'g' :: 't' :: ';' :: r => '&' :: 'g' :: 't' :: ';' :: escAttrCore r
  | '&' :: 'q' :: 'u' :: 'o' :: 't' :: ';' :: r => '&' :: 'q' :: 'u' :: 'o' :: 't' :: ';' :: escAttrCore r
  | '&' :: r => '&' :: 'a' :: 'm' :: 'p' :: ';' :: escAttrCore r
  | '<' :: r => '&' :: 'l' :: 't' :: ';' :: escAttrCore r
  | c :: r => c :: escAttrCore r

/-- Replace double quotes by `&quot;` (applied when the value is emitted in
double quotes). -/
def escDq : List Char → List Char
  | [] => []
  | c :: r =>
    if c = dquote then '&' :: 'q' :: 'u' :: 'o' :: 't' :: ';' :: escDq r
    else c :: escDq r

/-- Serialized attribute after its leading space: name, `=`, quoted escaped
value.  The quote character is chosen as html5lib's serializer does with
`use_best_quote_char`: single quotes when the value contains a double quote
but no single quote, double quotes (escaping any in the value) otherwise. -/
def serAttrBody (a : Attr) : List Char :=
  if dquote ∈ escAttrCore a.2 ∧ ¬ squote ∈ escAttrCore a.2 then
    a.1 ++ '=' :: squote :: (escAttrCore a.2 ++ [squote])
  else
    a.1 ++ '=' :: dquote :: (escDq (escAttrCore a.2) ++ [dquote])

/-- Serialize one attribute. -/
def serializeAttr (a : Attr) : List Char := ' ' :: serAttrBody a

/-- Serialize one token. A comment never reaches the serializer (the filter
drops them all). -/
def serializeTok : Tok → List Char
  | Tok.text s => escText s
  | Tok.startTag n ats _ => '<' :: (n ++ (ats.map serializeAttr).flatten ++ ['>'])
  | Tok.endTag n => '<' :: '/' :: (n ++ ['>'])
  | Tok.comment => []

/-- Serialize a token stream. -/
def serialize (ts : List Tok) : List Char := (ts.map serializeTok).flatten

/-- The whole cleaning pipeline on character lists:
`bleach.clean(s, tags=allowed_tags, attributes=allowed_attributes, strip=True)`. -/
def cleanChars (s : List Char) : List Char :=
  serialize (mergeToks (cleanToks false (tokenize (preprocess s))))

/-- `strip_invalid_html` (html_inspector.py, lines 6-22). -/
def strip_invalid_html (s : String) : String := ⟨cleanChars s.data⟩

/-! ### Predicates used by the verification -/

/-- A character of markup-free plain text: not one of the markup-significant
characters `<`, `>`, `&`, and not an invisible control character (the
invisible set contains CR and NUL, the characters the input preprocessing
rewrites). -/
def plainChar (c : Char) : Bool :=
  !(c = '<' || c = '>' || c = '&' || isInvis c)

/-- The characters that can appear in an escape entity the serializer
emits. -/
def entityChars : List Char :=
  ['&', 'a', 'm', 'p', ';', 'l', 't', 'g', 'q', 'u', 'o']

/-- Text in serialized form: no raw `<` or `>`, and every `&` starts one of
the serializer's entities.  `escText` is the identity exactly on such text. -/
def escClean : List Char → Bool
  | [] => true
  | '&' :: 'a' :: 'm' :: 'p' :: ';' :: r => escClean r
  | '&' :: 'l' :: 't' :: ';' :: r => escClean r
  | '&' :: 'g' :: 't' :: ';' :: r => escClean r
  | '&' :: 'q' :: 'u' :: 'o' :: 't' :: ';' :: r => escClean r
  | '&' :: _ => false
  | '<' :: _ => false
  | '>' :: _ => false
  | _ :: r => escClean r

/-- Attribute-value text in serialized form: no raw `<`, and every `&` starts
one of the serializer's entities (`>`, quotes and anything else are left
as-is by `escAttrCore`). -/
def attrClean : List Char → Bool
  | [] => true
  | '&' :: 'a' :: 'm' :: 'p' :: ';' :: r => attrClean r
  | '&' :: 'l' :: 't' :: ';' :: r => attrClean r
  | '&' :: 'g' :: 't' :: ';' :: r => attrClean r
  | '&' :: 'q' :: 'u' :: 'o' :: 't' :: ';' :: r => attrClean r
  | '&' :: _ => false
  | '<' :: _ => false
  | _ :: r => attrClean r

/-- The value obtained by re-tokenizing a serialized attribute value: the
serialized text between the chosen quotes. -/
def reVal (v : List Char) : List Char :=
  if dquote ∈ escAttrCore v ∧ ¬ squote ∈ escAttrCore v then escAttrCore v
  else escDq (escAttrCore v)

/-- The token obtained by re-tokenizing the serialization of a clean token:
text gets escaped, attribute values become their serialized text. -/
def reEsc : Tok → Tok
  | Tok.text s => Tok.text (escText s)
  | Tok.startTag n ats _ => Tok.startTag n (ats.map (fun a => (a.1, reVal a.2))) false
  | Tok.endTag n => Tok.endTag n
  | Tok.comment => Tok.comment

/-- A character that the tokenizer keeps inside a tag name unchanged. -/
def tagChar (c : Char) : Bool :=
  !(isWsH c) && c ≠ '/' && c ≠ '>' && c ≠ '<' && c ≠ '!' && c ≠ '?' && lowerCh c = c

/-- A tag name that round-trips through the tokenizer: nonempty, starts with
a letter, all characters kept unchanged.  Every allowed tag name is valid. -/
def validTagName : List Char → Bool
  | [] => false
  | c :: r => isLetter c && (c :: r).all tagChar

/-- An attribute name that round-trips through the tokenizer. -/
def validAttrName (k : List Char) : Bool :=
  !k.isEmpty &&
    k.all (fun c => !(isWsH c) && c ≠ '/' && c ≠ '>' && c ≠ '=' && lowerCh c = c)

/-- A character the input preprocessing leaves unchanged. -/
def cOK (c : Char) : Prop := c ≠ '\r' ∧ c ≠ '\x00'

instance (c : Char) : Decidable (cOK c) := by unfold cOK; infer_instance

/-- A character list the input preprocessing leaves unchanged. -/
def sOK (s : List Char) : Prop := ∀ c ∈ s, cOK c

instance (s : List Char) : Decidable (sOK s) := by unfold sOK; infer_instance

/-- What the sanitizing filter guarantees about a kept attribute. -/
def wfAttr (n : List Char) (a : Attr) : Prop :=
  a.1 ∈ allowedAttrsFor n ∧
  (a.1 = "href".toList ∨ a.1 = "src".toList → uriAllowed a.2 = true) ∧
  sOK a.2

/-- Shape of a single token of the cleaned, merged stream. -/
def wfTok : Tok → Prop
  | Tok.text s => s ≠ [] ∧ ∀ c ∈ s, isInvis c = false
  | Tok.startTag n ats sc =>
      n ∈ allowedTags ∧ sc = false ∧ (∀ a ∈ ats, wfAttr n a) ∧
      (ats.map Prod.fst).Nodup
  | Tok.endTag n => n ∈ allowedTags
  | Tok.comment => False

/-- The stream does not begin with a text token. -/
def noTextHead : List Tok → Prop
  | Tok.text _ :: _ => False
  | _ => True

/-- Shape of the cleaned, merged token stream: well-formed tokens, no two
adjacent text tokens. -/
def CleanShape : List Tok → Prop
  | [] => True
  | t :: r =>
    wfTok t ∧ CleanShape r ∧
    (match t with | Tok.text _ => noTextHead r | _ => True)

/-- Shape of a single token after the sanitizing filter, before merging:
like `wfTok` except that text may still be empty. -/
def midTok : Tok → Prop
  | Tok.text s => ∀ c ∈ s, isInvis c = false
  | t => wfTok t

/-- What the tokenizer guarantees about every token it emits: start tags
carry attributes with distinct names and preprocessed values. -/
def tokOK : Tok → Prop
  | Tok.text s => sOK s
  | Tok.startTag _ ats _ => (ats.map Prod.fst).Nodup ∧ ∀ a ∈ ats, sOK a.2
  | Tok.endTag _ => True
  | Tok.comment => True

/-- The tokenizer-state invariant matching `tokOK`. -/
def stOK : TkState → Prop
  | .data acc => sOK acc
  | .tagOpen acc => sOK acc
  | .endTagOpen acc => sOK acc
  | .tagName acc _ _ => sOK acc
  | .beforeAttrName acc _ _ ats => sOK acc ∧ ∀ a ∈ ats, sOK a.2
  | .attrName acc _ _ ats _ => sOK acc ∧ ∀ a ∈ ats, sOK a.2
  | .afterAttrName acc _ _ ats _ => sOK acc ∧ ∀ a ∈ ats, sOK a.2
  | .beforeAttrValue acc _ _ ats _ => sOK acc ∧ ∀ a ∈ ats, sOK a.2
  | .attrValueDq acc _ _ ats _ av => sOK acc ∧ (∀ a ∈ ats, sOK a.2) ∧ sOK av
  | .attrValueSq acc _ _ ats _ av => sOK acc ∧ (∀ a ∈ ats, sOK a.2) ∧ sOK av
  | .attrValueUnq acc _ _ ats _ av => sOK acc ∧ (∀ a ∈ ats, sOK a.2) ∧ sOK av
  | .afterQuoted acc _ _ ats => sOK acc ∧ ∀ a ∈ ats, sOK a.2
  | .selfClosing acc _ _ ats => sOK acc ∧ ∀ a ∈ ats, sOK a.2
  | _ => True

/-- The property C1 claims of every token of the re-tokenized output: tag
names inside the allow-list, attribute names inside the tag's allow-list. -/
def tokSafe : Tok → Prop
  | Tok.text _ => True
  | Tok.startTag n ats _ =>
      n ∈ allowedTags ∧ ∀ a ∈ ats, a.1 ∈ allowedAttrsFor n
  | Tok.endTag n => n ∈ allowedTags
  | Tok.comment => True

/-- Expansion relation between an attribute value and its serialized text:
each character is either kept or replaced by the matching escape entity
(ampersands already heading a known entity are kept). -/
inductive UriExp : List Char → List Char → Prop where
  | nil : UriExp [] []
  | plain (c : Char) (v w : List Char) (h1 : c ≠ '&') (h2 : c ≠ '<')
      (h3 : c ≠ dquote) : UriExp v w → UriExp (c :: v) (c :: w)
  | keepAmp (v w : List Char) : UriExp v w → UriExp ('&' :: v) ('&' :: w)
  | expAmp (v w : List Char) : UriExp v w →
      UriExp ('&' :: v) ('&' :: 'a' :: 'm' :: 'p' :: ';' :: w)
  | expLt (v w : List Char) : UriExp v w →
      UriExp ('<' :: v) ('&' :: 'l' :: 't' :: ';' :: w)
  | keepQ (v w : List Char) : UriExp v w → UriExp (dquote :: v) (dquote :: w)
  | expQ (v w : List Char) : UriExp v w →
      UriExp (dquote :: v) ('&' :: 'q' :: 'u' :: 'o' :: 't' :: ';' :: w)

/-! ## The web application (main.py)

The handlers are embedded as state transformers on the database (posts and
comments), parametrised by the requesting user and the validated form data
(`none` models a GET request or a form that did not validate).  Flask
internals (templates, sessions, SQLAlchemy) are collapsed to the data that
flows through them: a response either renders a template with the stored
strings passed to it verbatim, redirects, or aborts with a status code. -/

/-- The data of a validated `CreatePostForm` (fields used by `edit_post` and
`add_new_post`: title, subtitle, body, img_url, author). -/
structure PostForm where
  title : String
  subtitle : String
  body : String
  imgUrl : String
  author : Nat
deriving DecidableEq, Repr

/-- A row of the `blog_posts` table. -/
structure PostRow where
  id : Nat
  title : String
  subtitle : String
  date : String
  body : String
  imgUrl : String
  authorId : Nat
deriving DecidableEq, Repr

/-- A row of the `comments` table. -/
structure CommentRow where
  text : String
  authorId : Nat
  postId : Nat
deriving DecidableEq, Repr

/-- The persistent state: blog posts and comments. -/
structure Db where
  posts : List PostRow
  comments : List CommentRow
deriving DecidableEq, Repr

/-- `current_user`: either anonymous or an authenticated user with an id. -/
inductive Viewer where
  | anon
  | user (id : Nat)
deriving DecidableEq, Repr

/-- `current_user.is_authenticated`. -/
def Viewer.isAuth : Viewer → Bool
  | .anon => false
  | .user _ => true

/-- `current_user.id` (only meaningful for authenticated users). -/
def Viewer.uid : Viewer → Nat
  | .anon => 0
  | .user i => i

/-- The observable outcome of a request. -/
inductive Response where
  | renderPost (postId : Nat) (commentTexts : List String)
  | renderHome (bodies : List String)
  | renderForm
  | redirectLogin
  | redirectHome
  | redirectShowPost (postId : Nat)
  | abort403
  | unauthorized401
deriving DecidableEq, Repr

/-- `get_all_posts` (main.py, lines 154-157): renders the stored posts
verbatim. -/
def get_all_posts (db : Db) : Db × Response :=
  (db, .renderHome (db.posts.map (fun p => p.body)))

/-- `show_post` (main.py, lines 232-258).  On a validated comment submission
by an unauthenticated user: flash and redirect to login, nothing stored.  By
an authenticated user: a comment whose text is `strip_invalid_html` of the
submitted editor data is added.  The rendered comment list is the one queried
before the insertion (line 236), so it is the pre-insertion list, passed
verbatim. -/
def show_post (v : Viewer) (postId : Nat) (submitted : Option String) (db : Db) :
    Db × Response :=
  match submitted with
  | none => (db, .renderPost postId (db.comments.map (fun c => c.text)))
  | some txt =>
    if v.isAuth then
      ({ db with comments :=
          db.comments ++ [⟨strip_invalid_html txt, v.uid, postId⟩] },
       .renderPost postId (db.comments.map (fun c => c.text)))
    else (db, .redirectLogin)

/-- `admin_only` (main.py, lines 137-150): run the wrapped handler iff
`current_user.is_authenticated and current_user.id == 1`, else `abort(403)`.
(`current_user` is a request-bound proxy, so the check reads the state of the
request being served.) -/
def adminOnly (v : Viewer) (body : Db → Db × Response) (db : Db) : Db × Response :=
  if v.isAuth = true ∧ v.uid = 1 then body db else (db, .abort403)

/-- `flask_login.login_required` with no `login_view` configured (main.py
never sets one): an unauthenticated request is answered with HTTP 401 before
the wrapped handler runs. -/
def loginRequired (v : Viewer) (inner : Db → Db × Response) (db : Db) : Db × Response :=
  if v.isAuth then inner db else (db, .unauthorized401)

/-- The undecorated body of `edit_post` (main.py, lines 271-289): on a
validated form, the matching post's fields are overwritten, with
`strip_invalid_html` applied to the body field only. -/
def edit_post_body (postId : Nat) (form : Option PostForm) (db : Db) : Db × Response :=
  match form with
  | none => (db, .renderForm)
  | some f =>
    ({ db with posts := db.posts.map (fun p =>
        if p.id = postId then
          { p with title := f.title, subtitle := f.subtitle, imgUrl := f.imgUrl,
                   authorId := f.author, body := strip_invalid_html f.body }
        else p) },
     .redirectShowPost postId)

/-- `edit_post` with its decorator stack (main.py, lines 268-270):
`@login_required` outside, `@admin_only(current_user)` inside. -/
def edit_post (v : Viewer) (postId : Nat) (form : Option PostForm) (db : Db) :
    Db × Response :=
  loginRequired v (adminOnly v (edit_post_body postId form)) db

/-- The undecorated body of `add_new_post` (main.py, lines 302-316): on a
validated form a new post is stored, with `strip_invalid_html` applied to the
body field; `newId` models the database-assigned primary key and `today` the
formatted current date. -/
def add_new_post_body (v : Viewer) (form : Option PostForm) (newId : Nat)
    (today : String) (db : Db) : Db × Response :=
  match form with
  | none => (db, .renderForm)
  | some f =>
    ({ db with posts := db.posts ++
        [⟨newId, f.title, f.subtitle, today, strip_invalid_html f.body, f.imgUrl, v.uid⟩] },
     .redirectHome)

/-- `add_new_post` with its decorator stack (main.py, lines 299-301). -/
def add_new_post (v : Viewer) (form : Option PostForm) (newId : Nat)
    (today : String) (db : Db) : Db × Response :=
  loginRequired v (adminOnly v (add_new_post_body v form newId today)) db

/-- The undecorated body of `delete_post` (main.py, lines 323-327). -/
def delete_post_body (postId : Nat) (db : Db) : Db × Response :=
  ({ db with posts := db.posts.filter (fun p => p.id ≠ postId) }, .redirectHome)

/-- `delete_post` with its decorator stack (main.py, lines 320-322). -/
def delete_post (v : Viewer) (postId : Nat) (db : Db) : Db × Response :=
  loginRequired v (adminOnly v (delete_post_body postId)) db

/-! ## Properties of the escaping functions -/

set_option maxHeartbeats 1000000

theorem escClean_escText (s : List Char) : escClean (escText s) = true := by
  induction s using escText.induct <;> simp_all [escText, escClean]

theorem escText_of_escClean (s : List Char) (h : escClean s = true) :
    escText s = s := by
  induction s using escClean.induct <;> simp_all [escText, escClean]

theorem escText_escText (s : List Char) : escText (escText s) = escText s :=
  escText_of_escClean _ (escClean_escText s)

theorem escClean_no_angle (s : List Char) (h : escClean s = true) :
    ∀ c ∈ s, c ≠ '<' ∧ c ≠ '>' := by
  induction s using escClean.induct <;> simp_all [escClean]

theorem escText_ne_nil (s : List Char) (h : s ≠ []) : escText s ≠ [] := by
  induction s using escText.induct <;> simp_all [escText]

theorem escText_all {P : Char → Prop} (hE : ∀ c ∈ entityChars, P c)
    (s : List Char) (h : ∀ c ∈ s, P c) : ∀ c ∈ escText s, P c := by
  induction s using escText.induct <;> simp_all [escText, entityChars]

theorem attrClean_escAttrCore (s : List Char) :
    attrClean (escAttrCore s) = true := by
  induction s using escAttrCore.induct <;> simp_all [escAttrCore, attrClean]

theorem escAttrCore_of_attrClean (s : List Char) (h : attrClean s = true) :
    escAttrCore s = s := by
  induction s using attrClean.induct <;> simp_all [escAttrCore, attrClean]

theorem attrClean_no_lt (s : List Char) (h : attrClean s = true) :
    ∀ c ∈ s, c ≠ '<' := by
  induction s using attrClean.induct <;> simp_all [attrClean]

theorem escAttrCore_all {P : Char → Prop} (hE : ∀ c ∈ entityChars, P c)
    (s : List Char) (h : ∀ c ∈ s, P c) : ∀ c ∈ escAttrCore s, P c := by
  induction s using escAttrCore.induct <;> simp_all [escAttrCore, entityChars]

theorem escDq_no_dquote (s : List Char) : ∀ c ∈ escDq s, c ≠ dquote := by
  induction s with
  | nil => simp [escDq]
  | cons c r ih =>
    by_cases hc : c = dquote <;> simp_all [escDq, dquote]

theorem escDq_of_no_dquote (s : List Char) (h : ∀ c ∈ s, c ≠ dquote) :
    escDq s = s := by
  induction s with
  | nil => rfl
  | cons c r ih =>
    have hc : c ≠ dquote := h c (by simp)
    simp only [escDq, if_neg hc]
    rw [ih (fun x hx => h x (by simp [hx]))]

theorem attrClean_escDq (s : List Char) (h : attrClean s = true) :
    attrClean (escDq s) = true := by
  induction s using attrClean.induct with
  | case1 => simp [escDq, attrClean]
  | case2 r ih => simp_all [escDq, attrClean, dquote]
  | case3 r ih => simp_all [escDq, attrClean, dquote]
  | case4 r ih => simp_all [escDq, attrClean, dquote]
  | case5 r ih => simp_all [escDq, attrClean, dquote]
  | case6 r hn1 hn2 hn3 hn4 => simp_all [attrClean]
  | case7 r => simp_all [attrClean]
  | case8 c r hn1 hn2 ih =>
    by_cases hc : c = dquote <;> simp_all [escDq, attrClean, dquote]

theorem escDq_all {P : Char → Prop} (hE : ∀ c ∈ entityChars, P c)
    (s : List Char) (h : ∀ c ∈ s, P c) : ∀ c ∈ escDq s, P c := by
  induction s with
  | nil => simp [escDq]
  | cons c r ih =>
    by_cases hc : c = dquote <;> simp_all [escDq, entityChars]

/-! ## Plain text passes through unchanged -/

theorem preprocess_cons (c : Char) (r : List Char) (h1 : c ≠ '\r')
    (h2 : c ≠ '\x00') : preprocess (c :: r) = c :: preprocess r := by
  rw [preprocess.eq_def]
  split <;> simp_all

theorem preprocess_plain (s : List Char) (h : ∀ c ∈ s, plainChar c = true) :
    preprocess s = s := by
  induction s with
  | nil => rfl
  | cons c r ih =>
    have hc := h c (by simp)
    have h1 : c ≠ '\r' := by
      rintro rfl; simp [plainChar, isInvis] at hc
    have h2 : c ≠ '\x00' := by
      rintro rfl; simp [plainChar, isInvis] at hc
    rw [preprocess_cons c r h1 h2, ih (fun x hx => h x (by simp [hx]))]

theorem tokRun_data_no_lt (s : List Char) (acc : List Char)
    (h : ∀ c ∈ s, c ≠ '<') :
    tokRun (.data acc) s = emitAcc (s.reverse ++ acc) := by
  induction s generalizing acc with
  | nil => simp [tokRun, tokFlush]
  | cons c r ih =>
    have hc : c ≠ '<' := h c (by simp)
    simp only [tokRun, tokNext, if_neg hc]
    rw [ih (c :: acc) (fun x hx => h x (by simp [hx]))]
    simp

theorem escText_plain (s : List Char) (h : ∀ c ∈ s, plainChar c = true) :
    escText s = s := by
  apply escText_of_escClean
  induction s with
  | nil => rfl
  | cons c r ih =>
    have hc := h c (by simp)
    simp only [plainChar, Bool.not_eq_true', Bool.or_eq_false_iff,
      decide_eq_false_iff_not] at hc
    rw [escClean.eq_def]
    split <;> simp_all


theorem map_invisFix_plain (s : List Char) (h : ∀ c ∈ s, plainChar c = true) :
    s.map invisFix = s := by
  have hid : ∀ c ∈ s, invisFix c = id c := by
    intro c hc
    have hp := h c hc
    simp only [plainChar, Bool.not_eq_true', Bool.or_eq_false_iff] at hp
    simp [invisFix, hp.2]
  rw [List.map_congr_left hid, List.map_id]

theorem emitAcc_rev (s : List Char) (h : s ≠ []) :
    emitAcc s.reverse = [Tok.text s] := by
  unfold emitAcc
  rw [if_neg (by simp [h]), List.reverse_reverse]

theorem cleanChars_plain (s : List Char) (h : ∀ c ∈ s, plainChar c = true) :
    cleanChars s = s := by
  have hlt : ∀ c ∈ s, c ≠ '<' := by
    intro c hc
    have hp := h c hc
    rintro rfl; simp [plainChar] at hp
  unfold cleanChars tokenize
  rw [preprocess_plain s h, tokRun_data_no_lt s [] hlt]
  cases s with
  | nil => rfl
  | cons c r =>
    rw [List.append_nil, emitAcc_rev _ (by simp)]
    have h1 : cleanToks false [Tok.text (c :: r)] = [Tok.text (c :: r)] := by
      simp only [cleanToks]
      rw [map_invisFix_plain _ h]
    rw [h1]
    have h2 : mergeToks [Tok.text (c :: r)] = [Tok.text (c :: r)] := by
      simp [mergeToks]
    rw [h2]
    simp only [serialize, List.map, List.flatten_cons, List.flatten_nil,
      List.append_nil, serializeTok]
    exact escText_plain _ h

/-! ## Tokenizer segment lemmas -/

theorem tokRun_cons (st : TkState) (c : Char) (r : List Char) :
    tokRun st (c :: r) = (tokNext st c).1 ++ tokRun (tokNext st c).2 r := rfl

theorem tokRun_data_seg (t : List Char) (h : ∀ c ∈ t, c ≠ '<') :
    ∀ acc rest, tokRun (.data acc) (t ++ rest) = tokRun (.data (t.reverse ++ acc)) rest := by
  induction t with
  | nil => intro acc rest; simp
  | cons c r ih =>
    intro acc rest
    have hc : c ≠ '<' := h c (by simp)
    rw [List.cons_append, tokRun_cons]
    simp only [tokNext, if_neg hc]
    rw [List.nil_append, ih (fun x hx => h x (by simp [hx])) (c :: acc) rest]
    simp

theorem tokRun_tagName_seg (m : List Char)
    (h : ∀ c ∈ m, isWsH c = false ∧ c ≠ '/' ∧ c ≠ '>' ∧ lowerCh c = c) :
    ∀ acc e n rest,
      tokRun (.tagName acc e n) (m ++ rest) = tokRun (.tagName acc e (m.reverse ++ n)) rest := by
  induction m with
  | nil => intro acc e n rest; simp
  | cons c r ih =>
    intro acc e n rest
    obtain ⟨h1, h2, h3, h4⟩ := h c (by simp)
    rw [List.cons_append, tokRun_cons]
    simp only [tokNext, h1, if_neg h2, if_neg h3, Bool.false_eq_true, if_false, h4]
    rw [List.nil_append, ih (fun x hx => h x (by simp [hx])) acc e (c :: n) rest]
    simp

theorem tokRun_attrName_seg (m : List Char)
    (h : ∀ c ∈ m, isWsH c = false ∧ c ≠ '=' ∧ c ≠ '/' ∧ c ≠ '>' ∧ lowerCh c = c) :
    ∀ acc e n ats an rest,
      tokRun (.attrName acc e n ats an) (m ++ rest)
        = tokRun (.attrName acc e n ats (m.reverse ++ an)) rest := by
  induction m with
  | nil => intro acc e n ats an rest; simp
  | cons c r ih =>
    intro acc e n ats an rest
    obtain ⟨h1, h2, h3, h4, h5⟩ := h c (by simp)
    rw [List.cons_append, tokRun_cons]
    simp only [tokNext, h1, if_neg h2, if_neg h3, if_neg h4, Bool.false_eq_true, if_false, h5]
    rw [List.nil_append, ih (fun x hx => h x (by simp [hx])) acc e n ats (c :: an) rest]
    simp

theorem tokRun_dqVal_seg (m : List Char) (h : ∀ c ∈ m, c ≠ dquote) :
    ∀ acc e n ats an av rest,
      tokRun (.attrValueDq acc e n ats an av) (m ++ rest)
        = tokRun (.attrValueDq acc e n ats an (m.reverse ++ av)) rest := by
  induction m with
  | nil => intro acc e n ats an av rest; simp
  | cons c r ih =>
    intro acc e n ats an av rest
    have hc : c ≠ dquote := h c (by simp)
    rw [List.cons_append, tokRun_cons]
    simp only [tokNext, if_neg hc]
    rw [List.nil_append, ih (fun x hx => h x (by simp [hx])) acc e n ats an (c :: av) rest]
    simp

theorem tokRun_sqVal_seg (m : List Char) (h : ∀ c ∈ m, c ≠ squote) :
    ∀ acc e n ats an av rest,
      tokRun (.attrValueSq acc e n ats an av) (m ++ rest)
        = tokRun (.attrValueSq acc e n ats an (m.reverse ++ av)) rest := by
  induction m with
  | nil => intro acc e n ats an av rest; simp
  | cons c r ih =>
    intro acc e n ats an av rest
    have hc : c ≠ squote := h c (by simp)
    rw [List.cons_append, tokRun_cons]
    simp only [tokNext, if_neg hc]
    rw [List.nil_append, ih (fun x hx => h x (by simp [hx])) acc e n ats an (c :: av) rest]
    simp

theorem allowedTags_valid : ∀ n ∈ allowedTags, validTagName n = true := by decide

theorem allowedAttrs_valid (t k : List Char) (hk : k ∈ allowedAttrsFor t) :
    validAttrName k = true := by
  unfold allowedAttrsFor at hk
  split at hk
  · fin_cases hk <;> decide
  · split at hk
    · fin_cases hk <;> decide
    · simp at hk

/-! ## Consuming a serialized tag -/

theorem tagChar_props (c : Char) (h : tagChar c = true) :
    isWsH c = false ∧ c ≠ '/' ∧ c ≠ '>' ∧ c ≠ '<' ∧ c ≠ '!' ∧ c ≠ '?' ∧ lowerCh c = c := by
  simp only [tagChar, Bool.and_eq_true, Bool.not_eq_true', decide_eq_true_eq] at h
  tauto

theorem validTagName_props (n0 : Char) (ntl : List Char)
    (h : validTagName (n0 :: ntl) = true) :
    isLetter n0 = true ∧ tagChar n0 = true ∧ ∀ c ∈ ntl, tagChar c = true := by
  simp only [validTagName, Bool.and_eq_true, List.all_eq_true, List.mem_cons] at h
  refine ⟨h.1, h.2 n0 (Or.inl rfl), fun c hc => h.2 c (Or.inr hc)⟩

theorem validAttrName_props (k : List Char) (h : validAttrName k = true) :
    k ≠ [] ∧ ∀ c ∈ k, isWsH c = false ∧ c ≠ '/' ∧ c ≠ '>' ∧ c ≠ '=' ∧ lowerCh c = c := by
  refine ⟨?_, ?_⟩
  · rintro rfl; simp [validAttrName] at h
  · simp only [validAttrName, Bool.and_eq_true, List.all_eq_true] at h
    intro c hc
    have hc2 := h.2 c hc
    simp only [Bool.and_eq_true, Bool.not_eq_true', decide_eq_true_eq] at hc2
    tauto

theorem dedupAttrs_of_nodup : ∀ (ats : List Attr) (seen : List (List Char)),
    (ats.map Prod.fst).Nodup → (∀ a ∈ ats, a.1 ∉ seen) → dedupAttrs seen ats = ats := by
  intro ats
  induction ats with
  | nil => intro seen _ _; rfl
  | cons a r ih =>
    intro seen hnd hseen
    simp only [List.map_cons, List.nodup_cons] at hnd
    rw [dedupAttrs, if_neg (hseen a (by simp))]
    rw [ih (a.1 :: seen) hnd.2]
    intro b hb
    simp only [List.mem_cons]
    rintro (hb1 | hb2)
    · exact hnd.1 (hb1 ▸ List.mem_map_of_mem Prod.fst hb)
    · exact hseen b (by simp [hb]) hb2

theorem tokNext_bAN_name (acc : List Char) (e : Bool) (n : List Char)
    (ats : List Attr) (c : Char) (h1 : isWsH c = false) (h2 : c ≠ '/') (h3 : c ≠ '>') :
    tokNext (.beforeAttrName acc e n ats) c = ([], .attrName acc e n ats [lowerCh c]) := by
  simp [tokNext, h1, h2, h3]

theorem tokNext_tagOpen_letter (acc : List Char) (c : Char) (h0 : isLetter c = true)
    (h1 : c ≠ '!') (h2 : c ≠ '/') (h3 : c ≠ '?') :
    tokNext (.tagOpen acc) c = ([], .tagName acc false [lowerCh c]) := by
  simp [tokNext, h0, h1, h2, h3]

theorem tokNext_endTagOpen_letter (acc : List Char) (c : Char) (h0 : isLetter c = true)
    (h1 : c ≠ '>') :
    tokNext (.endTagOpen acc) c = ([], .tagName acc true [lowerCh c]) := by
  simp [tokNext, h0, h1]

/-- Consume one serialized attribute (after its leading space) from the
before-attribute-name state; it is parsed back as name and serialized
value. -/
theorem tokRun_oneAttrBody (a : Attr) (ha : validAttrName a.1 = true)
    (acc : List Char) (e : Bool) (n : List Char) (ats : List Attr) (rest : List Char) :
    tokRun (.beforeAttrName acc e n ats) (serAttrBody a ++ rest)
      = tokRun (.afterQuoted acc e n ((a.1, reVal a.2) :: ats)) rest := by
  obtain ⟨k, v⟩ := a
  obtain ⟨hne, hprops⟩ := validAttrName_props k ha
  cases k with
  | nil => exact absurd rfl hne
  | cons k0 ktl =>
    obtain ⟨p1, p2, p3, p4, p5⟩ := hprops k0 (by simp)
    have hktl : ∀ c ∈ ktl, isWsH c = false ∧ c ≠ '=' ∧ c ≠ '/' ∧ c ≠ '>' ∧ lowerCh c = c := by
      intro c hc
      have := hprops c (by simp [hc])
      tauto
    unfold serAttrBody
    by_cases hq : dquote ∈ escAttrCore v ∧ ¬ squote ∈ escAttrCore v
    · rw [if_pos hq]
      have hnosq : ∀ c ∈ escAttrCore v, c ≠ squote := by
        intro c hc hceq; exact hq.2 (hceq ▸ hc)
      simp only [List.cons_append, List.append_assoc, List.singleton_append]
      rw [tokRun_cons, tokNext_bAN_name acc e n ats k0 p1 p2 p3, p5, List.nil_append]
      rw [tokRun_attrName_seg ktl hktl acc e n ats [k0]]
      rw [tokRun_cons]
      have e1 : tokNext (.attrName acc e n ats (ktl.reverse ++ [k0])) '='
          = ([], .beforeAttrValue acc e n ats (ktl.reverse ++ [k0])) := rfl
      rw [e1, List.nil_append, tokRun_cons]
      have e2 : tokNext (.beforeAttrValue acc e n ats (ktl.reverse ++ [k0])) squote
          = ([], .attrValueSq acc e n ats (ktl.reverse ++ [k0]) []) := rfl
      rw [e2, List.nil_append]
      rw [tokRun_sqVal_seg (escAttrCore v) hnosq acc e n ats (ktl.reverse ++ [k0]) []]
      rw [tokRun_cons]
      have e3 : tokNext (.attrValueSq acc e n ats (ktl.reverse ++ [k0])
            ((escAttrCore v).reverse ++ [])) squote
          = ([], .afterQuoted acc e n
              (((ktl.reverse ++ [k0]).reverse, ((escAttrCore v).reverse ++ []).reverse) :: ats)) := rfl
      rw [e3, List.nil_append]
      have hval : reVal v = escAttrCore v := by rw [reVal, if_pos hq]
      simp [hval]
    · rw [if_neg hq]
      have hnodq : ∀ c ∈ escDq (escAttrCore v), c ≠ dquote := escDq_no_dquote _
      simp only [List.cons_append, List.append_assoc, List.singleton_append]
      rw [tokRun_cons, tokNext_bAN_name acc e n ats k0 p1 p2 p3, p5, List.nil_append]
      rw [tokRun_attrName_seg ktl hktl acc e n ats [k0]]
      rw [tokRun_cons]
      have e1 : tokNext (.attrName acc e n ats (ktl.reverse ++ [k0])) '='
          = ([], .beforeAttrValue acc e n ats (ktl.reverse ++ [k0])) := rfl
      rw [e1, List.nil_append, tokRun_cons]
      have e2 : tokNext (.beforeAttrValue acc e n ats (ktl.reverse ++ [k0])) dquote
          = ([], .attrValueDq acc e n ats (ktl.reverse ++ [k0]) []) := rfl
      rw [e2, List.nil_append]
      rw [tokRun_dqVal_seg (escDq (escAttrCore v)) hnodq acc e n ats (ktl.reverse ++ [k0]) []]
      rw [tokRun_cons]
      have e3 : tokNext (.attrValueDq acc e n ats (ktl.reverse ++ [k0])
            ((escDq (escAttrCore v)).reverse ++ [])) dquote
          = ([], .afterQuoted acc e n
              (((ktl.reverse ++ [k0]).reverse, ((escDq (escAttrCore v)).reverse ++ []).reverse) :: ats)) := rfl
      rw [e3, List.nil_append]
      have hval : reVal v = escDq (escAttrCore v) := by rw [reVal, if_neg hq]
      simp [hval]

/-- Consume the remaining serialized attributes and the closing `>` from the
after-quoted state; the finished tag is emitted. -/
theorem tokRun_attrsFromQuoted : ∀ (ats : List Attr),
    (∀ a ∈ ats, validAttrName a.1 = true) →
    ∀ (acc : List Char) (e : Bool) (n : List Char) (parsed : List Attr) (rest : List Char),
      tokRun (.afterQuoted acc e n parsed) ((ats.map serializeAttr).flatten ++ '>' :: rest)
        = emitTag acc e n ((ats.map (fun x => (x.1, reVal x.2))).reverse ++ parsed) false
            ++ tokRun (.data []) rest := by
  intro ats
  induction ats with
  | nil =>
    intro _ acc e n parsed rest
    simp only [List.map_nil, List.flatten_nil, List.nil_append, List.reverse_nil]
    rw [tokRun_cons]
    have e1 : tokNext (.afterQuoted acc e n parsed) '>' = (emitTag acc e n parsed false, .data []) := rfl
    rw [e1]
  | cons a ats2 ih =>
    intro h acc e n parsed rest
    simp only [List.map_cons, List.flatten_cons, serializeAttr, List.cons_append,
      List.append_assoc]
    rw [tokRun_cons]
    have e1 : tokNext (.afterQuoted acc e n parsed) ' ' = ([], .beforeAttrName acc e n parsed) := rfl
    rw [e1, List.nil_append]
    rw [show serAttrBody a ++ ((ats2.map serializeAttr).flatten ++ '>' :: rest)
        = serAttrBody a ++ ((ats2.map serializeAttr).flatten ++ '>' :: rest) from rfl]
    rw [tokRun_oneAttrBody a (h a (by simp)) acc e n parsed
        ((ats2.map serializeAttr).flatten ++ '>' :: rest)]
    rw [ih (fun x hx => h x (by simp [hx])) acc e n ((a.1, reVal a.2) :: parsed) rest]
    simp [List.append_assoc]

/-- Consume a whole serialized start tag from the data state. -/
theorem tokRun_startTagSer (n : List Char) (ats : List Attr)
    (hn : validTagName n = true) (ha : ∀ a ∈ ats, validAttrName a.1 = true)
    (acc rest : List Char) :
    tokRun (.data acc) (('<' :: (n ++ (ats.map serializeAttr).flatten ++ ['>'])) ++ rest)
      = emitAcc acc
          ++ Tok.startTag n (dedupAttrs [] (ats.map (fun x => (x.1, reVal x.2)))) false
            :: tokRun (.data []) rest := by
  cases n with
  | nil => simp [validTagName] at hn
  | cons n0 ntl =>
    obtain ⟨hl, htc, htl⟩ := validTagName_props n0 ntl hn
    obtain ⟨q1, q2, q3, q4, q5, q6, q7⟩ := tagChar_props n0 htc
    rw [List.cons_append, tokRun_cons]
    have e1 : tokNext (.data acc) '<' = ([], .tagOpen acc) := rfl
    rw [e1, List.nil_append]
    simp only [List.cons_append, List.append_assoc, List.singleton_append]
    rw [tokRun_cons, tokNext_tagOpen_letter acc n0 hl q5 q2 q6, q7, List.nil_append]
    rw [tokRun_tagName_seg ntl (fun c hc => by have := tagChar_props c (htl c hc); tauto)
        acc false [n0]]
    cases ats with
    | nil =>
      simp only [List.map_nil, List.flatten_nil, List.nil_append]
      rw [tokRun_cons]
      have e2 : tokNext (.tagName acc false (ntl.reverse ++ [n0])) '>'
          = (emitTag acc false (ntl.reverse ++ [n0]) [] false, .data []) := rfl
      rw [e2]
      unfold emitTag
      simp [dedupAttrs]
    | cons a ats2 =>
      simp only [List.map_cons, List.flatten_cons, serializeAttr, List.cons_append,
        List.append_assoc]
      rw [tokRun_cons]
      have e2 : tokNext (.tagName acc false (ntl.reverse ++ [n0])) ' '
          = ([], .beforeAttrName acc false (ntl.reverse ++ [n0]) []) := rfl
      rw [e2]
      simp only [List.nil_append]
      rw [tokRun_oneAttrBody a (ha a (by simp)) acc false (ntl.reverse ++ [n0]) []
          ((ats2.map serializeAttr).flatten ++ '>' :: rest)]
      rw [tokRun_attrsFromQuoted ats2 (fun x hx => ha x (by simp [hx])) acc false
          (ntl.reverse ++ [n0]) [(a.1, reVal a.2)] rest]
      unfold emitTag
      have hrev : ((ats2.map (fun x => (x.1, reVal x.2))).reverse ++ [(a.1, reVal a.2)]).reverse
          = (a.1, reVal a.2) :: ats2.map (fun x => (x.1, reVal x.2)) := by
        simp
      simp [hrev]

/-- Consume a whole serialized end tag from the data state. -/
theorem tokRun_endTagSer (n : List Char) (hn : validTagName n = true)
    (acc rest : List Char) :
    tokRun (.data acc) (('<' :: '/' :: (n ++ ['>'])) ++ rest)
      = emitAcc acc ++ Tok.endTag n :: tokRun (.data []) rest := by
  cases n with
  | nil => simp [validTagName] at hn
  | cons n0 ntl =>
    obtain ⟨hl, htc, htl⟩ := validTagName_props n0 ntl hn
    obtain ⟨q1, q2, q3, q4, q5, q6, q7⟩ := tagChar_props n0 htc
    rw [List.cons_append, tokRun_cons]
    have e1 : tokNext (.data acc) '<' = ([], .tagOpen acc) := rfl
    rw [e1, List.nil_append, List.cons_append, tokRun_cons]
    have e2 : tokNext (.tagOpen acc) '/' = ([], .endTagOpen acc) := rfl
    rw [e2, List.nil_append]
    simp only [List.cons_append, List.append_assoc, List.singleton_append]
    rw [tokRun_cons, tokNext_endTagOpen_letter acc n0 hl q3, q7, List.nil_append]
    rw [tokRun_tagName_seg ntl (fun c hc => by have := tagChar_props c (htl c hc); tauto)
        acc true [n0]]
    rw [tokRun_cons]
    have e3 : tokNext (.tagName acc true (ntl.reverse ++ [n0])) '>'
        = (emitTag acc true (ntl.reverse ++ [n0]) [] false, .data []) := rfl
    rw [e3]
    unfold emitTag
    simp

/-! ## The serialize/tokenize round trip -/

theorem tokRun_serialize : ∀ (N : Nat) (ts : List Tok), ts.length ≤ N → CleanShape ts →
    ∀ acc : List Char, (acc = [] ∨ noTextHead ts) →
      tokRun (.data acc) (serialize ts) = emitAcc acc ++ ts.map reEsc := by
  intro N
  induction N with
  | zero =>
    intro ts hlen _ acc _
    have hts : ts = [] := List.length_eq_zero.mp (Nat.le_zero.mp hlen)
    subst hts
    simp [serialize, tokRun, tokFlush]
  | succ N ih =>
    intro ts hlen hcs acc hacc
    cases ts with
    | nil => simp [serialize, tokRun, tokFlush]
    | cons t ts2 =>
      obtain ⟨hwf, hcs2, hhead⟩ := hcs
      have hlen2 : ts2.length ≤ N := by
        simpa using Nat.le_of_succ_le_succ (by simpa using hlen)
      cases t with
      | text s =>
        have hacc0 : acc = [] := by
          rcases hacc with h | h
          · exact h
          · exact h.elim
        subst hacc0
        obtain ⟨hs_ne, _⟩ := hwf
        have hser : serialize (Tok.text s :: ts2) = escText s ++ serialize ts2 := by
          simp [serialize, serializeTok]
        rw [hser]
        have hesc_ne : escText s ≠ [] := escText_ne_nil s hs_ne
        have hnolt : ∀ c ∈ escText s, c ≠ '<' := fun c hc =>
          (escClean_no_angle _ (escClean_escText s) c hc).1
        rw [tokRun_data_seg (escText s) hnolt [] (serialize ts2)]
        have hnth : noTextHead ts2 := hhead
        rw [ih ts2 hlen2 hcs2 ((escText s).reverse ++ []) (Or.inr hnth)]
        rw [List.append_nil, emitAcc_rev _ hesc_ne]
        simp [reEsc, emitAcc]
      | startTag n ats sc =>
        obtain ⟨hmem, hsc, hats, hnodup⟩ := hwf
        subst hsc
        have hser : serialize (Tok.startTag n ats false :: ts2)
            = ('<' :: (n ++ (ats.map serializeAttr).flatten ++ ['>'])) ++ serialize ts2 := by
          simp [serialize, serializeTok]
        rw [hser]
        rw [tokRun_startTagSer n ats (allowedTags_valid n hmem)
            (fun a hax => allowedAttrs_valid n a.1 (hats a hax).1) acc (serialize ts2)]
        rw [ih ts2 hlen2 hcs2 [] (Or.inl rfl)]
        have hkeys : (ats.map (fun x => (x.1, reVal x.2))).map Prod.fst = ats.map Prod.fst := by
          simp [List.map_map]
        have hdret : dedupAttrs [] (ats.map (fun x => (x.1, reVal x.2)))
            = ats.map (fun x => (x.1, reVal x.2)) := by
          apply dedupAttrs_of_nodup
          · rw [hkeys]; exact hnodup
          · simp
        rw [hdret]
        simp [reEsc, emitAcc]
      | endTag n =>
        have hser : serialize (Tok.endTag n :: ts2)
            = ('<' :: '/' :: (n ++ ['>'])) ++ serialize ts2 := by
          simp [serialize, serializeTok]
        rw [hser]
        rw [tokRun_endTagSer n (allowedTags_valid n hwf) acc (serialize ts2)]
        rw [ih ts2 hlen2 hcs2 [] (Or.inl rfl)]
        simp [reEsc, emitAcc]
      | comment => exact hwf.elim

/-- The full round trip: tokenizing the serialization of a clean token
stream gives back the stream, with text escaped and attribute values in
serialized form. -/
theorem tokenize_serialize (ts : List Tok) (hcs : CleanShape ts) :
    tokenize (serialize ts) = ts.map reEsc := by
  have h := tokRun_serialize ts.length ts le_rfl hcs [] (Or.inl rfl)
  simpa [tokenize, emitAcc] using h

/-! ## Provenance: tokens carry only preprocessed characters -/

theorem sOK_nil : sOK [] := fun c hc => absurd hc (List.not_mem_nil c)

theorem sOK_cons (c : Char) (s : List Char) (hc : cOK c) (hs : sOK s) : sOK (c :: s) := by
  intro x hx
  rcases List.mem_cons.mp hx with rfl | h
  · exact hc
  · exact hs x h

theorem sOK_rev (s : List Char) (h : sOK s) : sOK s.reverse :=
  fun c hc => h c (List.mem_reverse.mp hc)

theorem sOK_append (a b : List Char) (ha : sOK a) (hb : sOK b) : sOK (a ++ b) := by
  intro x hx
  rcases List.mem_append.mp hx with h | h
  · exact ha x h
  · exact hb x h

theorem sOK_flatten (l : List (List Char)) (h : ∀ s ∈ l, sOK s) : sOK l.flatten := by
  induction l with
  | nil => simp [sOK]
  | cons a r ih =>
    rw [List.flatten_cons]
    exact sOK_append a r.flatten (h a (by simp)) (ih (fun s hs => h s (by simp [hs])))

theorem dedupAttrs_sub : ∀ (l : List Attr) (seen : List (List Char)) (a : Attr),
    a ∈ dedupAttrs seen l → a ∈ l := by
  intro l
  induction l with
  | nil => intro seen a ha; simp [dedupAttrs] at ha
  | cons b r ih =>
    intro seen a ha
    rw [dedupAttrs] at ha
    split_ifs at ha with hm
    · exact List.mem_cons_of_mem b (ih seen a ha)
    · rcases List.mem_cons.mp ha with rfl | h
      · simp
      · exact List.mem_cons_of_mem b (ih (b.1 :: seen) a h)

theorem dedupAttrs_keys : ∀ (l : List Attr) (seen : List (List Char)),
    ((dedupAttrs seen l).map Prod.fst).Nodup ∧
      ∀ k ∈ (dedupAttrs seen l).map Prod.fst, k ∉ seen := by
  intro l
  induction l with
  | nil => intro seen; simp [dedupAttrs]
  | cons b r ih =>
    intro seen
    rw [dedupAttrs]
    split_ifs with hm
    · exact ih seen
    · obtain ⟨hnd, hnot⟩ := ih (b.1 :: seen)
      refine ⟨?_, ?_⟩
      · simp only [List.map_cons, List.nodup_cons]
        exact ⟨fun hmem => (hnot b.1 hmem) (by simp), hnd⟩
      · intro k hk
        simp only [List.map_cons, List.mem_cons] at hk
        rcases hk with rfl | h
        · exact hm
        · intro hks
          exact hnot k h (by simp [hks])

theorem emitAcc_ok (acc : List Char) (h : sOK acc) : ∀ t ∈ emitAcc acc, tokOK t := by
  intro t ht
  unfold emitAcc at ht
  split_ifs at ht with he
  · simp at ht
  · rcases List.mem_singleton.mp ht with rfl
    exact sOK_rev acc h

theorem emitTag_ok (acc : List Char) (e : Bool) (n : List Char) (ats : List Attr)
    (sc : Bool) (hacc : sOK acc) (hats : ∀ a ∈ ats, sOK a.2) :
    ∀ t ∈ emitTag acc e n ats sc, tokOK t := by
  intro t ht
  unfold emitTag at ht
  split_ifs at ht
  · rcases List.mem_append.mp ht with h | h
    · exact emitAcc_ok acc hacc t h
    · rcases List.mem_singleton.mp h with rfl
      trivial
  · rcases List.mem_append.mp ht with h | h
    · exact emitAcc_ok acc hacc t h
    · rcases List.mem_singleton.mp h with rfl
      refine ⟨(dedupAttrs_keys ats.reverse []).1, ?_⟩
      intro a ha
      exact hats a (List.mem_reverse.mp (dedupAttrs_sub ats.reverse [] a ha))

theorem atsOK_push (an av : List Char) (ats : List Attr) (hav : sOK av)
    (hats : ∀ a ∈ ats, sOK a.2) :
    ∀ a ∈ ((an.reverse, av.reverse) :: ats : List Attr), sOK a.2 := by
  intro a ha
  rcases List.mem_cons.mp ha with rfl | h
  · exact sOK_rev av hav
  · exact hats a h

theorem tokNext_ok (st : TkState) (c : Char) (h1 : stOK st) (h2 : cOK c) :
    (∀ t ∈ (tokNext st c).1, tokOK t) ∧ stOK (tokNext st c).2 := by
  have hnil : ∀ t ∈ ([] : List Tok), tokOK t := by simp
  have hcom : ∀ t ∈ [Tok.comment], tokOK t := by
    intro t ht; rcases List.mem_singleton.mp ht with rfl; trivial
  cases st with
  | data acc =>
    simp only [tokNext]; split_ifs
    · exact ⟨hnil, h1⟩
    · exact ⟨hnil, sOK_cons _ _ h2 h1⟩
  | tagOpen acc =>
    simp only [tokNext]; split_ifs
    · exact ⟨emitAcc_ok acc h1, trivial⟩
    · exact ⟨hnil, h1⟩
    · exact ⟨emitAcc_ok acc h1, trivial⟩
    · exact ⟨hnil, h1⟩
    · exact ⟨hnil, sOK_cons _ _ (by exact ⟨by decide, by decide⟩) h1⟩
    · exact ⟨hnil, sOK_cons _ _ h2 (sOK_cons _ _ (by exact ⟨by decide, by decide⟩) h1)⟩
  | endTagOpen acc =>
    simp only [tokNext]; split_ifs
    · exact ⟨hnil, h1⟩
    · exact ⟨hnil, h1⟩
    · exact ⟨emitAcc_ok acc h1, trivial⟩
  | tagName acc e n =>
    simp only [tokNext]; split_ifs
    · exact ⟨hnil, h1, by simp⟩
    · exact ⟨hnil, h1, by simp⟩
    · exact ⟨emitTag_ok acc e n [] false h1 (by simp), sOK_nil⟩
    · exact ⟨hnil, h1⟩
  | beforeAttrName acc e n ats =>
    obtain ⟨ha, hb⟩ := h1
    simp only [tokNext]; split_ifs
    · exact ⟨hnil, ha, hb⟩
    · exact ⟨hnil, ha, hb⟩
    · exact ⟨emitTag_ok acc e n ats false ha hb, sOK_nil⟩
    · exact ⟨hnil, ha, hb⟩
  | attrName acc e n ats an =>
    obtain ⟨ha, hb⟩ := h1
    simp only [tokNext]; split_ifs
    · exact ⟨hnil, ha, hb⟩
    · exact ⟨hnil, ha, hb⟩
    · exact ⟨hnil, ha, atsOK_push an [] ats sOK_nil hb⟩
    · exact ⟨emitTag_ok acc e n _ false ha (atsOK_push an [] ats sOK_nil hb), sOK_nil⟩
    · exact ⟨hnil, ha, hb⟩
  | afterAttrName acc e n ats an =>
    obtain ⟨ha, hb⟩ := h1
    simp only [tokNext]; split_ifs
    · exact ⟨hnil, ha, hb⟩
    · exact ⟨hnil, ha, hb⟩
    · exact ⟨hnil, ha, atsOK_push an [] ats sOK_nil hb⟩
    · exact ⟨emitTag_ok acc e n _ false ha (atsOK_push an [] ats sOK_nil hb), sOK_nil⟩
    · exact ⟨hnil, ha, atsOK_push an [] ats sOK_nil hb⟩
  | beforeAttrValue acc e n ats an =>
    obtain ⟨ha, hb⟩ := h1
    simp only [tokNext]; split_ifs
    · exact ⟨hnil, ha, hb⟩
    · exact ⟨hnil, ha, hb, sOK_nil⟩
    · exact ⟨hnil, ha, hb, sOK_nil⟩
    · exact ⟨emitTag_ok acc e n _ false ha (atsOK_push an [] ats sOK_nil hb), sOK_nil⟩
    · exact ⟨hnil, ha, hb, sOK_cons _ _ h2 sOK_nil⟩
  | attrValueDq acc e n ats an av =>
    obtain ⟨ha, hb, hv⟩ := h1
    simp only [tokNext]; split_ifs
    · exact ⟨hnil, ha, atsOK_push an av ats hv hb⟩
    · exact ⟨hnil, ha, hb, sOK_cons _ _ h2 hv⟩
  | attrValueSq acc e n ats an av =>
    obtain ⟨ha, hb, hv⟩ := h1
    simp only [tokNext]; split_ifs
    · exact ⟨hnil, ha, atsOK_push an av ats hv hb⟩
    · exact ⟨hnil, ha, hb, sOK_cons _ _ h2 hv⟩
  | attrValueUnq acc e n ats an av =>
    obtain ⟨ha, hb, hv⟩ := h1
    simp only [tokNext]; split_ifs
    · exact ⟨hnil, ha, atsOK_push an av ats hv hb⟩
    · exact ⟨emitTag_ok acc e n _ false ha (atsOK_push an av ats hv hb), sOK_nil⟩
    · exact ⟨hnil, ha, hb, sOK_cons _ _ h2 hv⟩
  | afterQuoted acc e n ats =>
    obtain ⟨ha, hb⟩ := h1
    simp only [tokNext]; split_ifs
    · exact ⟨hnil, ha, hb⟩
    · exact ⟨hnil, ha, hb⟩
    · exact ⟨emitTag_ok acc e n ats false ha hb, sOK_nil⟩
    · exact ⟨hnil, ha, hb⟩
  | selfClosing acc e n ats =>
    obtain ⟨ha, hb⟩ := h1
    simp only [tokNext]; split_ifs
    · exact ⟨emitTag_ok acc e n ats true ha hb, sOK_nil⟩
    · exact ⟨hnil, ha, hb⟩
    · exact ⟨hnil, ha, hb⟩
    · exact ⟨hnil, ha, hb⟩
  | markupDecl =>
    simp only [tokNext]; split_ifs
    · exact ⟨hnil, trivial⟩
    · exact ⟨hcom, sOK_nil⟩
    · exact ⟨hnil, trivial⟩
  | markupDecl2 =>
    simp only [tokNext]; split_ifs
    · exact ⟨hnil, trivial⟩
    · exact ⟨hcom, sOK_nil⟩
    · exact ⟨hnil, trivial⟩
  | commentStart =>
    simp only [tokNext]; split_ifs
    · exact ⟨hnil, trivial⟩
    · exact ⟨hcom, sOK_nil⟩
    · exact ⟨hnil, trivial⟩
  | commentStartDash =>
    simp only [tokNext]; split_ifs
    · exact ⟨hnil, trivial⟩
    · exact ⟨hcom, sOK_nil⟩
    · exact ⟨hnil, trivial⟩
  | commentIn =>
    simp only [tokNext]; split_ifs
    · exact ⟨hnil, trivial⟩
    · exact ⟨hnil, trivial⟩
  | commentDash =>
    simp only [tokNext]; split_ifs
    · exact ⟨hnil, trivial⟩
    · exact ⟨hnil, trivial⟩
  | commentDash2 =>
    simp only [tokNext]; split_ifs
    · exact ⟨hcom, sOK_nil⟩
    · exact ⟨hnil, trivial⟩
    · exact ⟨hnil, trivial⟩
    · exact ⟨hnil, trivial⟩
  | commentBang =>
    simp only [tokNext]; split_ifs
    · exact ⟨hcom, sOK_nil⟩
    · exact ⟨hnil, trivial⟩
    · exact ⟨hnil, trivial⟩
  | bogus =>
    simp only [tokNext]; split_ifs
    · exact ⟨hcom, sOK_nil⟩
    · exact ⟨hnil, trivial⟩

theorem tokFlush_ok (st : TkState) (h : stOK st) : ∀ t ∈ tokFlush st, tokOK t := by
  have hcom : ∀ t ∈ [Tok.comment], tokOK t := by
    intro t ht; rcases List.mem_singleton.mp ht with rfl; trivial
  cases st with
  | data acc => exact emitAcc_ok acc h
  | tagOpen acc => exact emitAcc_ok _ (sOK_cons _ _ (by exact ⟨by decide, by decide⟩) h)
  | endTagOpen acc =>
    exact emitAcc_ok _ (sOK_cons _ _ (by exact ⟨by decide, by decide⟩)
      (sOK_cons _ _ (by exact ⟨by decide, by decide⟩) h))
  | tagName acc e n => exact emitAcc_ok acc h
  | beforeAttrName acc e n ats => exact emitAcc_ok acc h.1
  | attrName acc e n ats an => exact emitAcc_ok acc h.1
  | afterAttrName acc e n ats an => exact emitAcc_ok acc h.1
  | beforeAttrValue acc e n ats an => exact emitAcc_ok acc h.1
  | attrValueDq acc e n ats an av => exact emitAcc_ok acc h.1
  | attrValueSq acc e n ats an av => exact emitAcc_ok acc h.1
  | attrValueUnq acc e n ats an av => exact emitAcc_ok acc h.1
  | afterQuoted acc e n ats => exact emitAcc_ok acc h.1
  | selfClosing acc e n ats => exact emitAcc_ok acc h.1
  | markupDecl => exact hcom
  | markupDecl2 => exact hcom
  | commentStart => exact hcom
  | commentStartDash => exact hcom
  | commentIn => exact hcom
  | commentDash => exact hcom
  | commentDash2 => exact hcom
  | commentBang => exact hcom
  | bogus => exact hcom

theorem tokRun_ok : ∀ (s : List Char) (st : TkState), sOK s → stOK st →
    ∀ t ∈ tokRun st s, tokOK t := by
  intro s
  induction s with
  | nil => intro st _ h; exact tokFlush_ok st h
  | cons c r ih =>
    intro st hs h t ht
    rw [tokRun_cons] at ht
    rcases List.mem_append.mp ht with hm | hm
    · exact (tokNext_ok st c h (hs c (by simp))).1 t hm
    · exact ih (tokNext st c).2 (fun x hx => hs x (by simp [hx]))
        (tokNext_ok st c h (hs c (by simp))).2 t hm

theorem preprocess_sOK (s : List Char) : sOK (preprocess s) := by
  induction s using preprocess.induct <;>
    simp_all [preprocess, sOK, cOK]

theorem preprocess_of_sOK (s : List Char) (h : sOK s) : preprocess s = s := by
  induction s with
  | nil => rfl
  | cons c r ih =>
    obtain ⟨h1, h2⟩ := h c (by simp)
    rw [preprocess_cons c r h1 h2, ih (fun x hx => h x (by simp [hx]))]

/-! ## Characters of the serialized output -/

theorem cOK_of_noInvis (c : Char) (h : isInvis c = false) : cOK c := by
  refine ⟨fun hc => ?_, fun hc => ?_⟩
  · subst hc; revert h; decide
  · subst hc; revert h; decide

theorem allowedTags_sOK : ∀ n ∈ allowedTags, sOK n := by decide

theorem allowedAttrs_sOK (t k : List Char) (hk : k ∈ allowedAttrsFor t) : sOK k := by
  unfold allowedAttrsFor at hk
  split at hk
  · fin_cases hk <;> decide
  · split at hk
    · fin_cases hk <;> decide
    · simp at hk

theorem entityChars_cOK : ∀ c ∈ entityChars, cOK c := by decide

theorem CleanShape_mem : ∀ ts, CleanShape ts → ∀ t ∈ ts, wfTok t := by
  intro ts
  induction ts with
  | nil => simp
  | cons t r ih =>
    intro h x hx
    rcases List.mem_cons.mp hx with rfl | hm
    · exact h.1
    · exact ih h.2.1 x hm

theorem serializeTok_sOK (t : Tok) (h : wfTok t) : sOK (serializeTok t) := by
  cases t with
  | text s =>
    intro c hc
    exact escText_all entityChars_cOK s (fun x hx => cOK_of_noInvis x (h.2 x hx)) c hc
  | startTag n ats sc =>
    obtain ⟨hmem, hsc, hats, _⟩ := h
    refine sOK_cons _ _ (by decide) ?_
    refine sOK_append _ _ (sOK_append _ _ (allowedTags_sOK n hmem) ?_) (by decide)
    refine sOK_flatten _ ?_
    intro s hs
    rcases List.mem_map.mp hs with ⟨a, ha, rfl⟩
    refine sOK_cons _ _ (by decide) ?_
    have hk : sOK a.1 := allowedAttrs_sOK n a.1 (hats a ha).1
    have hv : sOK a.2 := (hats a ha).2.2
    have hcore : sOK (escAttrCore a.2) := fun c hc =>
      escAttrCore_all entityChars_cOK a.2 hv c hc
    unfold serAttrBody
    split_ifs
    · exact sOK_append _ _ hk (sOK_cons _ _ (by decide) (sOK_cons _ _ (by decide)
        (sOK_append _ _ hcore (by decide))))
    · exact sOK_append _ _ hk (sOK_cons _ _ (by decide) (sOK_cons _ _ (by decide)
        (sOK_append _ _ (fun c hc => escDq_all entityChars_cOK _ hcore c hc) (by decide))))
  | endTag n =>
    exact sOK_cons _ _ (by decide) (sOK_cons _ _ (by decide)
      (sOK_append _ _ (allowedTags_sOK n h) (by decide)))
  | comment => exact h.elim

theorem serialize_sOK (ts : List Tok) (h : CleanShape ts) : sOK (serialize ts) := by
  unfold serialize
  refine sOK_flatten _ ?_
  intro s hs
  rcases List.mem_map.mp hs with ⟨t, ht, rfl⟩
  exact serializeTok_sOK t (CleanShape_mem ts h t ht)

/-! ## Shape of the cleaned merged stream -/

theorem invisFix_noInvis (c : Char) : isInvis (invisFix c) = false := by
  unfold invisFix
  split_ifs with h
  · decide
  · exact Bool.not_eq_true _ ▸ (by simpa using h)

theorem attrOk_props (t : List Char) (a : Attr) (h : attrOk t a = true) :
    a.1 ∈ allowedAttrsFor t ∧
      (a.1 = "href".toList ∨ a.1 = "src".toList → uriAllowed a.2 = true) := by
  unfold attrOk at h
  split_ifs at h with h1 h2
  · exact ⟨h1, fun _ => h⟩
  · exact ⟨h1, fun hc => absurd hc h2⟩

theorem cleanToks_mid : ∀ (ts : List Tok) (em : Bool), (∀ t ∈ ts, tokOK t) →
    ∀ t ∈ cleanToks em ts, midTok t := by
  intro ts
  induction ts with
  | nil => intro em _ t ht; simp [cleanToks] at ht
  | cons t0 r ih =>
    intro em h t ht
    cases t0 with
    | text s =>
      simp only [cleanToks] at ht
      rcases List.mem_cons.mp ht with rfl | hm
      · intro c hc
        rcases List.mem_map.mp hc with ⟨x, _, rfl⟩
        exact invisFix_noInvis x
      · exact ih em (fun x hx => h x (by simp [hx])) t hm
    | startTag n ats sc =>
      have htok : (ats.map Prod.fst).Nodup ∧ ∀ a ∈ ats, sOK a.2 :=
        h (Tok.startTag n ats sc) (by simp)
      simp only [cleanToks] at ht
      by_cases hmem : n ∈ allowedTags
      · rw [if_pos hmem] at ht
        rcases List.mem_cons.mp ht with rfl | hm
        · refine ⟨hmem, rfl, ?_, ?_⟩
          · intro a ha
            have hf := List.mem_filter.mp ha
            obtain ⟨hp1, hp2⟩ := attrOk_props n a hf.2
            exact ⟨hp1, hp2, htok.2 a hf.1⟩
          · exact List.Nodup.sublist ((List.filter_sublist ats).map Prod.fst) htok.1
        · exact ih true (fun x hx => h x (by simp [hx])) t hm
      · rw [if_neg hmem] at ht
        rcases List.mem_cons.mp ht with rfl | hm
        · intro c hc
          by_cases hb : em = true ∧ n ∈ blockLevelTags
          · rw [if_pos hb] at hc
            rcases List.mem_singleton.mp hc with rfl; decide
          · rw [if_neg hb] at hc
            simp at hc
        · exact ih em (fun x hx => h x (by simp [hx])) t hm
    | endTag n =>
      simp only [cleanToks] at ht
      split_ifs at ht with hmem
      · rcases List.mem_cons.mp ht with rfl | hm
        · exact hmem
        · exact ih true (fun x hx => h x (by simp [hx])) t hm
      · rcases List.mem_cons.mp ht with rfl | hm
        · intro c hc; simp at hc
        · exact ih em (fun x hx => h x (by simp [hx])) t hm
    | comment =>
      simp only [cleanToks] at ht
      exact ih em (fun x hx => h x (by simp [hx])) t ht

theorem mergeToks_shape : ∀ ts : List Tok, (∀ t ∈ ts, midTok t) →
    CleanShape (mergeToks ts) := by
  intro ts
  induction ts with
  | nil => exact fun _ => trivial
  | cons t0 r ih =>
    intro h
    have hr := ih (fun x hx => h x (by simp [hx]))
    cases t0 with
    | text a =>
      have hmid : ∀ c ∈ a, isInvis c = false := h (Tok.text a) (by simp)
      simp only [mergeToks]
      cases hm : mergeToks r with
      | nil =>
        show CleanShape (if a.isEmpty = true then [] else [Tok.text a])
        split_ifs with he
        · trivial
        · exact ⟨⟨by simpa using he, hmid⟩, trivial, trivial⟩
      | cons u r2 =>
        rw [hm] at hr
        cases u with
        | text b =>
          obtain ⟨⟨hb_ne, hb_inv⟩, hr2, hnth⟩ := hr
          show CleanShape (if (a ++ b).isEmpty = true then r2 else Tok.text (a ++ b) :: r2)
          split_ifs with he
          · exact hr2
          · refine ⟨⟨by simpa using he, ?_⟩, hr2, hnth⟩
            intro c hc
            rcases List.mem_append.mp hc with hca | hcb
            · exact hmid c hca
            · exact hb_inv c hcb
        | startTag n2 ats2 sc2 =>
          show CleanShape (if a.isEmpty = true
            then Tok.startTag n2 ats2 sc2 :: r2 else Tok.text a :: Tok.startTag n2 ats2 sc2 :: r2)
          split_ifs with he
          · exact hr
          · exact ⟨⟨by simpa using he, hmid⟩, hr, trivial⟩
        | endTag n2 =>
          show CleanShape (if a.isEmpty = true
            then Tok.endTag n2 :: r2 else Tok.text a :: Tok.endTag n2 :: r2)
          split_ifs with he
          · exact hr
          · exact ⟨⟨by simpa using he, hmid⟩, hr, trivial⟩
        | comment => exact hr.1.elim
    | startTag n ats sc =>
      simp only [mergeToks]
      exact ⟨h (Tok.startTag n ats sc) (by simp), hr, trivial⟩
    | endTag n =>
      simp only [mergeToks]
      exact ⟨h (Tok.endTag n) (by simp), hr, trivial⟩
    | comment => exact (h Tok.comment (by simp)).elim

/-! ## The URI protocol check survives value serialization -/

theorem ofNat_plus32_toNat (c : Char) (h2 : c ≤ 'Z') :
    (Char.ofNat (c.toNat + 32)).toNat = c.toNat + 32 := by
  have hb : c.toNat + 32 < 55296 := by
    have hz : c.toNat ≤ 90 := h2
    omega
  unfold Char.ofNat
  rw [dif_pos (Or.inl hb)]
  simp [Char.toNat, UInt32.toNat, Char.ofNatAux]

theorem lowerCh_cases (c : Char) :
    lowerCh c = c ∨ ((lowerCh c).toNat = c.toNat + 32 ∧ 65 ≤ c.toNat ∧ c.toNat ≤ 90) := by
  unfold lowerCh
  split_ifs with h
  · right
    exact ⟨ofNat_plus32_toNat c h.2, h.1, h.2⟩
  · left; rfl

theorem lowerCh_ne (c d : Char) (hd : d.toNat < 97 ∨ 122 < d.toNat) (h : c ≠ d) :
    lowerCh c ≠ d := by
  intro he
  rcases lowerCh_cases c with h1 | ⟨h1, h2, h3⟩
  · exact h (by rw [← h1, he])
  · rw [he] at h1
    omega

theorem escAttrCore_cons_plain (c : Char) (r : List Char)
    (h1 : c ≠ '&') (h2 : c ≠ '<') :
    escAttrCore (c :: r) = c :: escAttrCore r := by
  rw [escAttrCore.eq_def]
  split <;> simp_all

theorem escDq_cons_ne (c : Char) (r : List Char) (h : c ≠ dquote) :
    escDq (c :: r) = c :: escDq r := by
  simp [escDq, h]

theorem escAttrCore_amp (r : List Char)
    (hn1 : ∀ r2, r = 'a' :: 'm' :: 'p' :: ';' :: r2 → False)
    (hn2 : ∀ r2, r = 'l' :: 't' :: ';' :: r2 → False)
    (hn3 : ∀ r2, r = 'g' :: 't' :: ';' :: r2 → False)
    (hn4 : ∀ r2, r = 'q' :: 'u' :: 'o' :: 't' :: ';' :: r2 → False) :
    escAttrCore ('&' :: r) = '&' :: 'a' :: 'm' :: 'p' :: ';' :: escAttrCore r := by
  rw [escAttrCore.eq_def]
  split <;> (try simp_all)
  rename_i hne1 hne2 heq
  exact hne1 heq.1.symm

theorem uriExp_core (v : List Char) : UriExp v (escAttrCore v) := by
  induction v using escAttrCore.induct with
  | case1 => exact UriExp.nil
  | case2 r ih =>
    exact UriExp.keepAmp _ _ (UriExp.plain 'a' _ _ (by decide) (by decide) (by decide)
      (UriExp.plain 'm' _ _ (by decide) (by decide) (by decide)
        (UriExp.plain 'p' _ _ (by decide) (by decide) (by decide)
          (UriExp.plain ';' _ _ (by decide) (by decide) (by decide) ih))))
  | case3 r ih =>
    exact UriExp.keepAmp _ _ (UriExp.plain 'l' _ _ (by decide) (by decide) (by decide)
      (UriExp.plain 't' _ _ (by decide) (by decide) (by decide)
        (UriExp.plain ';' _ _ (by decide) (by decide) (by decide) ih)))
  | case4 r ih =>
    exact UriExp.keepAmp _ _ (UriExp.plain 'g' _ _ (by decide) (by decide) (by decide)
      (UriExp.plain 't' _ _ (by decide) (by decide) (by decide)
        (UriExp.plain ';' _ _ (by decide) (by decide) (by decide) ih)))
  | case5 r ih =>
    exact UriExp.keepAmp _ _ (UriExp.plain 'q' _ _ (by decide) (by decide) (by decide)
      (UriExp.plain 'u' _ _ (by decide) (by decide) (by decide)
        (UriExp.plain 'o' _ _ (by decide) (by decide) (by decide)
          (UriExp.plain 't' _ _ (by decide) (by decide) (by decide)
            (UriExp.plain ';' _ _ (by decide) (by decide) (by decide) ih)))))
  | case6 r hn1 hn2 hn3 hn4 ih =>
    rw [escAttrCore_amp r hn1 hn2 hn3 hn4]
    exact UriExp.expAmp _ _ ih
  | case7 r ih => exact UriExp.expLt _ _ ih
  | case8 c r hn1 hn2 hn3 hn4 hn5 hn6 ih =>
    rw [escAttrCore_cons_plain c r (fun hh => hn5 hh) (fun hh => hn6 hh)]
    by_cases hc : c = dquote
    · subst hc; exact UriExp.keepQ _ _ ih
    · exact UriExp.plain c _ _ (fun hh => hn5 hh) (fun hh => hn6 hh) hc ih

theorem uriExp_dqCore (v : List Char) : UriExp v (escDq (escAttrCore v)) := by
  induction v using escAttrCore.induct with
  | case1 => exact UriExp.nil
  | case2 r ih =>
    exact UriExp.keepAmp _ _ (UriExp.plain 'a' _ _ (by decide) (by decide) (by decide)
      (UriExp.plain 'm' _ _ (by decide) (by decide) (by decide)
        (UriExp.plain 'p' _ _ (by decide) (by decide) (by decide)
          (UriExp.plain ';' _ _ (by decide) (by decide) (by decide) ih))))
  | case3 r ih =>
    exact UriExp.keepAmp _ _ (UriExp.plain 'l' _ _ (by decide) (by decide) (by decide)
      (UriExp.plain 't' _ _ (by decide) (by decide) (by decide)
        (UriExp.plain ';' _ _ (by decide) (by decide) (by decide) ih)))
  | case4 r ih =>
    exact UriExp.keepAmp _ _ (UriExp.plain 'g' _ _ (by decide) (by decide) (by decide)
      (UriExp.plain 't' _ _ (by decide) (by decide) (by decide)
        (UriExp.plain ';' _ _ (by decide) (by decide) (by decide) ih)))
  | case5 r ih =>
    exact UriExp.keepAmp _ _ (UriExp.plain 'q' _ _ (by decide) (by decide) (by decide)
      (UriExp.plain 'u' _ _ (by decide) (by decide) (by decide)
        (UriExp.plain 'o' _ _ (by decide) (by decide) (by decide)
          (UriExp.plain 't' _ _ (by decide) (by decide) (by decide)
            (UriExp.plain ';' _ _ (by decide) (by decide) (by decide) ih)))))
  | case6 r hn1 hn2 hn3 hn4 ih =>
    rw [escAttrCore_amp r hn1 hn2 hn3 hn4]
    exact UriExp.expAmp _ _ ih
  | case7 r ih => exact UriExp.expLt _ _ ih
  | case8 c r hn1 hn2 hn3 hn4 hn5 hn6 ih =>
    rw [escAttrCore_cons_plain c r (fun hh => hn5 hh) (fun hh => hn6 hh)]
    by_cases hc : c = dquote
    · subst hc
      exact UriExp.expQ _ _ ih
    · rw [escDq_cons_ne c _ hc]
      exact UriExp.plain c _ _ (fun hh => hn5 hh) (fun hh => hn6 hh) hc ih

theorem uriNormalize_cons (c : Char) (v : List Char) :
    uriNormalize (c :: v)
      = if stripUri c = true then uriNormalize v else lowerCh c :: uriNormalize v := by
  by_cases h : stripUri c = true <;> simp [uriNormalize, h]

theorem uriNormalize_cons_lit (c : Char) (v : List Char) (h1 : stripUri c = false)
    (h2 : lowerCh c = c) : uriNormalize (c :: v) = c :: uriNormalize v := by
  rw [uriNormalize_cons, if_neg (by simp [h1]), h2]

theorem uriExp_normalize (v w : List Char) (h : UriExp v w) :
    UriExp (uriNormalize v) (uriNormalize w) := by
  induction h with
  | nil => exact UriExp.nil
  | plain c v2 w2 h1 h2 h3 _ ih =>
    rw [uriNormalize_cons, uriNormalize_cons]
    by_cases hst : stripUri c = true
    · rw [if_pos hst, if_pos hst]; exact ih
    · rw [if_neg hst, if_neg hst]
      exact UriExp.plain (lowerCh c) _ _ (lowerCh_ne c '&' (by decide) h1)
        (lowerCh_ne c '<' (by decide) h2) (lowerCh_ne c dquote (by decide) h3) ih
  | keepAmp v2 w2 _ ih =>
    rw [uriNormalize_cons_lit '&' v2 (by decide) (by decide),
        uriNormalize_cons_lit '&' w2 (by decide) (by decide)]
    exact UriExp.keepAmp _ _ ih
  | expAmp v2 w2 _ ih =>
    rw [uriNormalize_cons_lit '&' v2 (by decide) (by decide),
        uriNormalize_cons_lit '&' _ (by decide) (by decide),
        uriNormalize_cons_lit 'a' _ (by decide) (by decide),
        uriNormalize_cons_lit 'm' _ (by decide) (by decide),
        uriNormalize_cons_lit 'p' _ (by decide) (by decide),
        uriNormalize_cons_lit ';' _ (by decide) (by decide)]
    exact UriExp.expAmp _ _ ih
  | expLt v2 w2 _ ih =>
    rw [uriNormalize_cons_lit '<' v2 (by decide) (by decide),
        uriNormalize_cons_lit '&' _ (by decide) (by decide),
        uriNormalize_cons_lit 'l' _ (by decide) (by decide),
        uriNormalize_cons_lit 't' _ (by decide) (by decide),
        uriNormalize_cons_lit ';' _ (by decide) (by decide)]
    exact UriExp.expLt _ _ ih
  | keepQ v2 w2 _ ih =>
    rw [uriNormalize_cons_lit dquote v2 (by decide) (by decide),
        uriNormalize_cons_lit dquote w2 (by decide) (by decide)]
    exact UriExp.keepQ _ _ ih
  | expQ v2 w2 _ ih =>
    rw [uriNormalize_cons_lit dquote v2 (by decide) (by decide),
        uriNormalize_cons_lit '&' _ (by decide) (by decide),
        uriNormalize_cons_lit 'q' _ (by decide) (by decide),
        uriNormalize_cons_lit 'u' _ (by decide) (by decide),
        uriNormalize_cons_lit 'o' _ (by decide) (by decide),
        uriNormalize_cons_lit 't' _ (by decide) (by decide),
        uriNormalize_cons_lit ';' _ (by decide) (by decide)]
    exact UriExp.expQ _ _ ih

theorem protocols_no_bad : ∀ p ∈ allowedProtocols, ∀ c ∈ p,
    ¬(c = '&' ∨ c = '<' ∨ c = dquote) := by decide

theorem uriScan_exp : ∀ (n m : List Char), UriExp n m → ∀ accN accM : List Char,
    (accM = accN ∨ ((∃ c ∈ accN, c = '&' ∨ c = '<' ∨ c = dquote) ∧ '&' ∈ accM)) →
    uriScan accN n = true → uriScan accM m = true := by
  intro n m h
  induction h with
  | nil => intro accN accM _ _; rfl
  | plain c v w h1 h2 h3 _ ih =>
    intro accN accM hinv hscan
    by_cases hc : c = ':'
    · subst hc
      simp only [uriScan, if_pos rfl] at hscan ⊢
      have hmemN : accN.reverse ∈ allowedProtocols := of_decide_eq_true hscan
      rcases hinv with rfl | ⟨⟨c0, hc0, hbad⟩, _⟩
      · exact hscan
      · exact absurd hbad (protocols_no_bad accN.reverse hmemN c0 (List.mem_reverse.mpr hc0))
    · simp only [uriScan, if_neg hc] at hscan ⊢
      apply ih (c :: accN) (c :: accM) ?_ hscan
      rcases hinv with rfl | ⟨⟨c0, hc0, hbad⟩, hampM⟩
      · exact Or.inl rfl
      · exact Or.inr ⟨⟨c0, by simp [hc0], hbad⟩, by simp [hampM]⟩
  | keepAmp v w _ ih =>
    intro accN accM hinv hscan
    simp only [uriScan, if_neg (by decide : ¬('&' = ':'))] at hscan ⊢
    apply ih ('&' :: accN) ('&' :: accM) ?_ hscan
    rcases hinv with rfl | ⟨⟨c0, hc0, hbad⟩, _⟩
    · exact Or.inl rfl
    · exact Or.inr ⟨⟨c0, by simp [hc0], hbad⟩, by simp⟩
  | expAmp v w _ ih =>
    intro accN accM hinv hscan
    simp only [uriScan, if_neg (by decide : ¬('&' = ':')), if_neg (by decide : ¬('a' = ':')),
      if_neg (by decide : ¬('m' = ':')), if_neg (by decide : ¬('p' = ':')),
      if_neg (by decide : ¬(';' = ':'))] at hscan ⊢
    apply ih ('&' :: accN) (';' :: 'p' :: 'm' :: 'a' :: '&' :: accM) ?_ hscan
    exact Or.inr ⟨⟨'&', by simp, Or.inl rfl⟩, by simp⟩
  | expLt v w _ ih =>
    intro accN accM hinv hscan
    simp only [uriScan, if_neg (by decide : ¬('<' = ':')), if_neg (by decide : ¬('&' = ':')),
      if_neg (by decide : ¬('l' = ':')), if_neg (by decide : ¬('t' = ':')),
      if_neg (by decide : ¬(';' = ':'))] at hscan ⊢
    apply ih ('<' :: accN) (';' :: 't' :: 'l' :: '&' :: accM) ?_ hscan
    exact Or.inr ⟨⟨'<', by simp, Or.inr (Or.inl rfl)⟩, by simp⟩
  | keepQ v w _ ih =>
    intro accN accM hinv hscan
    simp only [uriScan, if_neg (by decide : ¬(dquote = ':'))] at hscan ⊢
    apply ih (dquote :: accN) (dquote :: accM) ?_ hscan
    rcases hinv with rfl | ⟨⟨c0, hc0, hbad⟩, hampM⟩
    · exact Or.inl rfl
    · exact Or.inr ⟨⟨c0, by simp [hc0], hbad⟩, by simp [hampM]⟩
  | expQ v w _ ih =>
    intro accN accM hinv hscan
    simp only [uriScan, if_neg (by decide : ¬(dquote = ':')), if_neg (by decide : ¬('&' = ':')),
      if_neg (by decide : ¬('q' = ':')), if_neg (by decide : ¬('u' = ':')),
      if_neg (by decide : ¬('o' = ':')), if_neg (by decide : ¬('t' = ':')),
      if_neg (by decide : ¬(';' = ':'))] at hscan ⊢
    apply ih (dquote :: accN) (';' :: 't' :: 'o' :: 'u' :: 'q' :: '&' :: accM) ?_ hscan
    exact Or.inr ⟨⟨dquote, by simp, Or.inr (Or.inr rfl)⟩, by simp⟩

theorem uriAllowed_of_exp (v w : List Char) (h : UriExp v w)
    (ha : uriAllowed v = true) : uriAllowed w = true := by
  have hn := uriExp_normalize v w h
  unfold uriAllowed at ha ⊢
  revert ha
  generalize uriNormalize v = nv at hn
  generalize uriNormalize w = nw at hn
  intro ha
  cases hn with
  | nil => simpa using ha
  | plain c v2 w2 h1 h2 h3 hexp =>
    by_cases hc : c = '#'
    · subst hc; simp
    · rw [if_neg (by simp [hc])] at ha
      rw [if_neg (by simp [hc])]
      exact uriScan_exp _ _ (UriExp.plain c v2 w2 h1 h2 h3 hexp) [] [] (Or.inl rfl) ha
  | keepAmp v2 w2 hexp =>
    rw [if_neg (by simp)] at ha
    rw [if_neg (by simp)]
    exact uriScan_exp _ _ (UriExp.keepAmp v2 w2 hexp) [] [] (Or.inl rfl) ha
  | expAmp v2 w2 hexp =>
    rw [if_neg (by simp)] at ha
    rw [if_neg (by simp)]
    exact uriScan_exp _ _ (UriExp.expAmp v2 w2 hexp) [] [] (Or.inl rfl) ha
  | expLt v2 w2 hexp =>
    rw [if_neg (by simp)] at ha
    rw [if_neg (by simp)]
    exact uriScan_exp _ _ (UriExp.expLt v2 w2 hexp) [] [] (Or.inl rfl) ha
  | keepQ v2 w2 hexp =>
    rw [if_neg (by simp [dquote])] at ha
    rw [if_neg (by simp [dquote])]
    exact uriScan_exp _ _ (UriExp.keepQ v2 w2 hexp) [] [] (Or.inl rfl) ha
  | expQ v2 w2 hexp =>
    rw [if_neg (by simp [dquote])] at ha
    rw [if_neg (by simp)]
    exact uriScan_exp _ _ (UriExp.expQ v2 w2 hexp) [] [] (Or.inl rfl) ha

theorem uriAllowed_reVal (v : List Char) (h : uriAllowed v = true) :
    uriAllowed (reVal v) = true := by
  unfold reVal
  split_ifs with hq
  · exact uriAllowed_of_exp v _ (uriExp_core v) h
  · exact uriAllowed_of_exp v _ (uriExp_dqCore v) h

/-! ## The cleaned output is a fixed point of the pipeline -/

theorem map_invisFix_id (s : List Char) (h : ∀ c ∈ s, isInvis c = false) :
    s.map invisFix = s := by
  have hid : ∀ c ∈ s, invisFix c = id c := fun c hc => by simp [invisFix, h c hc]
  rw [List.map_congr_left hid, List.map_id]

theorem escText_noInvis (s : List Char) (h : ∀ c ∈ s, isInvis c = false) :
    ∀ c ∈ escText s, isInvis c = false :=
  escText_all (P := fun c => isInvis c = false) (by decide) s h

theorem cleanToks_fix : ∀ (ts : List Tok) (em : Bool), CleanShape ts →
    cleanToks em (ts.map reEsc) = ts.map reEsc := by
  intro ts
  induction ts with
  | nil => intro em _; rfl
  | cons t r ih =>
    intro em hcs
    obtain ⟨hwf, hcs2, hhead⟩ := hcs
    cases t with
    | text s =>
      simp only [List.map_cons, reEsc, cleanToks]
      rw [map_invisFix_id _ (escText_noInvis s hwf.2), ih em hcs2]
    | startTag n ats sc =>
      obtain ⟨hmem, hsc, hats, hnodup⟩ := hwf
      simp only [List.map_cons, reEsc, cleanToks]
      rw [if_pos hmem, ih true hcs2]
      have hfa : filterAttrs n (ats.map (fun a => (a.1, reVal a.2)))
          = ats.map (fun a => (a.1, reVal a.2)) := by
        apply List.filter_eq_self.mpr
        intro a ha
        rcases List.mem_map.mp ha with ⟨a0, ha0, rfl⟩
        obtain ⟨hk, huri, _⟩ := hats a0 ha0
        unfold attrOk
        rw [if_pos hk]
        split_ifs with hu
        · exact uriAllowed_reVal a0.2 (huri hu)
        · rfl
      rw [hfa]
    | endTag n =>
      have hmem : n ∈ allowedTags := hwf
      simp only [List.map_cons, reEsc, cleanToks]
      rw [if_pos hmem, ih true hcs2]
    | comment => exact hwf.elim

theorem mergeToks_fix : ∀ ts : List Tok, CleanShape ts →
    mergeToks (ts.map reEsc) = ts.map reEsc := by
  intro ts
  induction ts with
  | nil => intro _; rfl
  | cons t r ih =>
    intro hcs
    obtain ⟨hwf, hcs2, hhead⟩ := hcs
    cases t with
    | text s =>
      have hne : escText s ≠ [] := escText_ne_nil s hwf.1
      simp only [List.map_cons, reEsc, mergeToks]
      rw [ih hcs2]
      cases r with
      | nil =>
        show (if (escText s).isEmpty = true then [] else [Tok.text (escText s)]) = _
        rw [if_neg (by simpa using hne)]
        simp
      | cons t2 r2 =>
        cases t2 with
        | text s2 => exact hhead.elim
        | startTag n2 ats2 sc2 =>
          show (if (escText s).isEmpty = true
              then reEsc (Tok.startTag n2 ats2 sc2) :: r2.map reEsc
              else Tok.text (escText s) :: reEsc (Tok.startTag n2 ats2 sc2) :: r2.map reEsc) = _
          rw [if_neg (by simpa using hne)]
          simp
        | endTag n2 =>
          show (if (escText s).isEmpty = true
              then reEsc (Tok.endTag n2) :: r2.map reEsc
              else Tok.text (escText s) :: reEsc (Tok.endTag n2) :: r2.map reEsc) = _
          rw [if_neg (by simpa using hne)]
          simp
        | comment => exact hcs2.1.elim
    | startTag n ats sc =>
      simp only [List.map_cons, reEsc, mergeToks]
      rw [ih hcs2]
    | endTag n =>
      simp only [List.map_cons, reEsc, mergeToks]
      rw [ih hcs2]
    | comment => exact hwf.elim

theorem serializeAttr_reVal (a : Attr) :
    serializeAttr (a.1, reVal a.2) = serializeAttr a := by
  obtain ⟨k, v⟩ := a
  show serializeAttr (k, reVal v) = serializeAttr (k, v)
  by_cases hq : dquote ∈ escAttrCore v ∧ ¬ squote ∈ escAttrCore v
  · have hrv : reVal v = escAttrCore v := by rw [reVal, if_pos hq]
    unfold serializeAttr serAttrBody
    simp only [hrv]
    rw [escAttrCore_of_attrClean _ (attrClean_escAttrCore v)]
  · have hrv : reVal v = escDq (escAttrCore v) := by rw [reVal, if_neg hq]
    unfold serializeAttr serAttrBody
    simp only [hrv]
    rw [escAttrCore_of_attrClean _ (attrClean_escDq _ (attrClean_escAttrCore v))]
    have hnd : ¬ dquote ∈ escDq (escAttrCore v) := fun hmem =>
      (escDq_no_dquote _ dquote hmem) rfl
    rw [if_neg (fun hcon => hnd hcon.1), if_neg hq]
    rw [escDq_of_no_dquote _ (escDq_no_dquote _)]

theorem serialize_reEsc (ts : List Tok) (h : CleanShape ts) :
    serialize (ts.map reEsc) = serialize ts := by
  unfold serialize
  rw [List.map_map]
  congr 1
  apply List.map_congr_left
  intro t ht
  have hwf := CleanShape_mem ts h t ht
  cases t with
  | text s =>
    show escText (escText s) = escText s
    exact escText_escText s
  | startTag n ats sc =>
    show '<' :: (n ++ ((ats.map (fun a => (a.1, reVal a.2))).map serializeAttr).flatten ++ ['>'])
      = '<' :: (n ++ (ats.map serializeAttr).flatten ++ ['>'])
    rw [List.map_map]
    rw [show ats.map (serializeAttr ∘ fun a => (a.1, reVal a.2)) = ats.map serializeAttr from
      List.map_congr_left (fun a _ => serializeAttr_reVal a)]
  | endTag n => rfl
  | comment => exact hwf.elim

/-! ## Idempotence and the output allow-list invariant -/

theorem pipeline_shape (x : List Char) :
    CleanShape (mergeToks (cleanToks false (tokenize (preprocess x)))) :=
  mergeToks_shape _ (cleanToks_mid _ false
    (tokRun_ok (preprocess x) (.data []) (preprocess_sOK x) sOK_nil))

theorem cleanChars_idem (x : List Char) : cleanChars (cleanChars x) = cleanChars x := by
  have hshape := pipeline_shape x
  show cleanChars (serialize (mergeToks (cleanToks false (tokenize (preprocess x)))))
    = serialize (mergeToks (cleanToks false (tokenize (preprocess x))))
  generalize hts : mergeToks (cleanToks false (tokenize (preprocess x))) = ts at hshape
  unfold cleanChars
  rw [preprocess_of_sOK _ (serialize_sOK ts hshape)]
  rw [tokenize_serialize ts hshape]
  rw [cleanToks_fix ts false hshape, mergeToks_fix ts hshape, serialize_reEsc ts hshape]

theorem cleanChars_tokens_safe (x : List Char) :
    ∀ t ∈ tokenize (cleanChars x), tokSafe t := by
  intro t ht
  have hshape := pipeline_shape x
  rw [show cleanChars x = serialize (mergeToks (cleanToks false (tokenize (preprocess x))))
      from rfl] at ht
  generalize hts : mergeToks (cleanToks false (tokenize (preprocess x))) = ts at hshape ht
  rw [tokenize_serialize ts hshape] at ht
  rcases List.mem_map.mp ht with ⟨t0, ht0, rfl⟩
  have hwf := CleanShape_mem ts hshape t0 ht0
  cases t0 with
  | text s => trivial
  | startTag n ats sc =>
    obtain ⟨hmem, _, hats, _⟩ := hwf
    refine ⟨hmem, ?_⟩
    intro a ha
    rcases List.mem_map.mp ha with ⟨a0, ha0, rfl⟩
    exact (hats a0 ha0).1
  | endTag n => exact hwf
  | comment => exact hwf.elim

/-! ## Theorems for the claims -/

/-- C8: `strip_invalid_html` applied to the empty string returns the empty
string. -/
theorem C8_empty_input : strip_invalid_html "" = "" := rfl

/-- C7: for every input string of markup-free plain text — no `<`, `>`, `&`
and no invisible control characters — `strip_invalid_html` returns the input
unchanged. -/
theorem C7_plain_text_unchanged (s : String)
    (h : ∀ c ∈ s.data, plainChar c = true) :
    strip_invalid_html s = s := by
  cases s with
  | mk data =>
    show String.mk (cleanChars data) = String.mk data
    rw [cleanChars_plain data h]

/-- Witness for C7 at a concrete plain-text input. -/
theorem C7_plain_text_unchanged_witness :
    strip_invalid_html "Hello, world." = "Hello, world." :=
  C7_plain_text_unchanged "Hello, world." (by decide)

/-- C1: for every input string, re-tokenizing the string returned by
`strip_invalid_html` yields no tag whose name is outside the fixed tag
allow-list and no attribute whose name is outside the tag-specific attribute
allow-list. -/
theorem C1_output_within_allowlist :
    ∀ s : String, ∀ t ∈ tokenize (strip_invalid_html s).data, tokSafe t := by
  intro s
  exact cleanChars_tokens_safe s.data

/-- Witness for C1 at a concrete input: the anchor tag kept in the sanitized
output is within the allow-lists. -/
theorem C1_output_within_allowlist_witness :
    tokSafe (Tok.startTag "a".toList [("href".toList, "http://x".toList)] false) :=
  C1_output_within_allowlist "<a href=\"http://x\" onclick=\"evil()\">link</a>"
    (Tok.startTag "a".toList [("href".toList, "http://x".toList)] false) (by decide)

/-- C3: `strip_invalid_html` is idempotent. -/
theorem C3_idempotent :
    ∀ s : String, strip_invalid_html (strip_invalid_html s) = strip_invalid_html s := by
  intro s
  show String.mk (cleanChars (String.mk (cleanChars s.data)).data)
    = String.mk (cleanChars s.data)
  exact congrArg String.mk (cleanChars_idem s.data)

/-- C4 as stated is false on the code: bleach with `strip=True` removes the
disallowed `script` tag's markup but keeps its inner text, so the output is
`"alert(1)Hello"`, not `"Hello"`. -/
theorem C4_counterexample :
    strip_invalid_html "<script>alert(1)</script>Hello" = "alert(1)Hello" ∧
    strip_invalid_html "<script>alert(1)</script>Hello" ≠ "Hello" := by
  refine ⟨rfl, ?_⟩
  decide

/-- C4 (amended): applying `strip_invalid_html` to
`"<script>alert(1)</script>Hello"` yields exactly `"alert(1)Hello"`: the
disallowed script tag's markup is removed while its inner text is
preserved. -/
theorem C4_amended :
    strip_invalid_html "<script>alert(1)</script>Hello" = "alert(1)Hello" := rfl

/-- C5: the allowed anchor tag and its `href` attribute are kept and the
`onclick` attribute is removed. -/
theorem C5_attribute_stripping :
    strip_invalid_html "<a href=\"http://x\" onclick=\"evil()\">link</a>"
      = "<a href=\"http://x\">link</a>" := rfl

/-- C6: the allowed `img` tag and its `src` attribute are kept and the
`onerror` attribute is removed. -/
theorem C6_img_allowlist :
    strip_invalid_html "<img src=\"a.png\" onerror=\"evil()\">"
      = "<img src=\"a.png\">" := rfl

/-- C2: every user-supplied rich-text field is passed through
`strip_invalid_html` exactly once, at write time: the text stored for a new
comment in `show_post`, the body stored for an edited post in `edit_post`,
and the body stored for a new post in `add_new_post` each equal
`strip_invalid_html` of the submitted form data (the other stored fields are
taken verbatim), while the read paths (`show_post` without a submission,
`get_all_posts`) return the stored strings unchanged. -/
theorem C2_sanitize_on_write_only :
    ∀ (uid : Nat) (txt : String) (postId newId : Nat) (f : PostForm)
      (today : String) (db : Db),
    (show_post (.user uid) postId (some txt) db).1.comments
        = db.comments ++ [⟨strip_invalid_html txt, uid, postId⟩] ∧
    (edit_post (.user 1) postId (some f) db).1.posts
        = db.posts.map (fun p =>
            if p.id = postId then
              { p with title := f.title, subtitle := f.subtitle, imgUrl := f.imgUrl,
                       authorId := f.author, body := strip_invalid_html f.body }
            else p) ∧
    (add_new_post (.user 1) (some f) newId today db).1.posts
        = db.posts ++
            [⟨newId, f.title, f.subtitle, today, strip_invalid_html f.body, f.imgUrl, 1⟩] ∧
    show_post (.user uid) postId none db
        = (db, .renderPost postId (db.comments.map (fun c => c.text))) ∧
    get_all_posts db = (db, .renderHome (db.posts.map (fun p => p.body))) := by
  intro uid txt postId newId f today db
  refine ⟨rfl, ?_, ?_, rfl, rfl⟩
  · rfl
  · rfl

/-- C9 as stated is false on the code: an unauthenticated request to a
protected handler is rejected by `login_required` with HTTP 401 (no
`login_view` is configured), not with HTTP 403. -/
theorem C9_counterexample :
    delete_post .anon 1 ⟨[], []⟩ = (⟨[], []⟩, .unauthorized401) ∧
    Response.unauthorized401 ≠ Response.abort403 := by
  refine ⟨rfl, ?_⟩
  decide

/-- C9 (amended): for every request to `edit_post`, `add_new_post`, or
`delete_post`, the handler body executes if and only if the current user is
authenticated with id 1; an authenticated non-admin is aborted with HTTP 403
and an unauthenticated request is rejected by `login_required` with HTTP 401,
and in both rejected cases the database is unchanged (no post created,
modified, or deleted). -/
theorem C9_amended_admin_gate :
    ∀ (v : Viewer) (postId newId : Nat) (form : Option PostForm)
      (today : String) (db : Db),
    edit_post v postId form db
      = (if v.isAuth = true ∧ v.uid = 1 then edit_post_body postId form db
         else (db, if v.isAuth then .abort403 else .unauthorized401)) ∧
    add_new_post v form newId today db
      = (if v.isAuth = true ∧ v.uid = 1 then add_new_post_body v form newId today db
         else (db, if v.isAuth then .abort403 else .unauthorized401)) ∧
    delete_post v postId db
      = (if v.isAuth = true ∧ v.uid = 1 then delete_post_body postId db
         else (db, if v.isAuth then .abort403 else .unauthorized401)) := by
  intro v postId newId form today db
  cases v with
  | anon => exact ⟨rfl, rfl, rfl⟩
  | user i =>
    by_cases hi : i = 1
    · subst hi
      refine ⟨?_, ?_, ?_⟩ <;>
        simp [edit_post, add_new_post, delete_post, loginRequired, adminOnly,
              Viewer.isAuth, Viewer.uid]
    · refine ⟨?_, ?_, ?_⟩ <;>
        simp [edit_post, add_new_post, delete_post, loginRequired, adminOnly,
              Viewer.isAuth, Viewer.uid, hi]

/-- C10: a valid comment submission to `show_post` by an unauthenticated user
adds no comment (the database is unchanged) and redirects to the login
page. -/
theorem C10_anon_comment_redirects :
    ∀ (postId : Nat) (txt : String) (db : Db),
    show_post .anon postId (some txt) db = (db, .redirectLogin) := by
  intro postId txt db
  rfl

end FlaskBlog
